import Mathlib

/-!
# Verification of the gravsim Barnes-Hut core

A shallow embedding of the quadtree (`gravsim-simulation/src/tree.rs`) and the
per-step simulation pipeline (`gravsim-simulation/src/lib.rs`).  Scalars are
embedded as exact rationals (`ℚ`); the floating-point square root used in the
force computation is abstracted as an explicit function parameter `sq : ℚ → ℚ`
threaded through every force evaluation, so every statement about forces holds
for an arbitrary square-root realisation.  Node insertion, which the source
implements as unbounded recursion on a mutable tree, is embedded as a
fuel-indexed total function returning `none` when the fuel is exhausted
(i.e. when the source would still be recursing).
-/

namespace Gravsim

/-- 2-D vector (`nalgebra::Vector2<f32>` in the source), embedded over `ℚ`. -/
abbrev Vec2 := ℚ × ℚ

/-- Vector-times-scalar, as in `Vector2<f32> * f32`. -/
instance : HMul Vec2 ℚ Vec2 := ⟨fun v c => (v.1 * c, v.2 * c)⟩

/-- Vector-divided-by-scalar, as in `Vector2<f32> / f32`. -/
instance : HDiv Vec2 ℚ Vec2 := ⟨fun v c => (v.1 / c, v.2 / c)⟩

/-- Scalar-times-vector, as in `f32 * Vector2<f32>`. -/
instance : HMul ℚ Vec2 Vec2 := ⟨fun c v => (c * v.1, c * v.2)⟩

/-- `Vector2::norm_squared`. -/
def normSq (v : Vec2) : ℚ := v.1 * v.1 + v.2 * v.2

/-- `MassData` (lib.rs): a mass point in space. -/
structure MassData where
  position : Vec2
  mass : ℚ
deriving DecidableEq

/-- `Quadrant` (tree.rs): one quadrant of a node.  The enum value is the index
of the quadrant in the child list; bit 0 (`Quadrant::X`) is set when the offset
is in the +X half, bit 1 (`Quadrant::Y`) when it is in the +Y half.  So
`nw = 0b00`, `ne = 0b01`, `sw = 0b10`, `se = 0b11`. -/
inductive Quadrant where
  | nw
  | ne
  | sw
  | se
deriving DecidableEq

/-- `Quadrant::offset`: the offset a child in this quadrant has to its parent
node, to be scaled by half the parent's scale.  Component x is the X bit,
component y the Y bit. -/
def Quadrant.offset : Quadrant → Vec2
  | .nw => (0, 0)
  | .ne => (1, 0)
  | .sw => (0, 1)
  | .se => (1, 1)

/-- `Quadrant::from_offset`: the quadrant a point of the given offset to its
parent node (of the given scale) falls into.  `bits_x = offset.x > 0.5*scale`,
`bits_y = offset.y > 0.5*scale`, combined as the 2-bit index. -/
def Quadrant.fromOffset (off : Vec2) (scale : ℚ) : Quadrant :=
  if off.1 > 1 / 2 * scale then
    if off.2 > 1 / 2 * scale then .se else .ne
  else
    if off.2 > 1 / 2 * scale then .sw else .nw

/-- `Node` (tree.rs): `pos`, `scale`, `center_of_mass`, four optional owned
children (index order nw, ne, sw, se), and the `leaf` flag. -/
inductive Node : Type where
  | mk (pos : Vec2) (scale : ℚ) (com : MassData) (c0 c1 c2 c3 : Option Node) (leaf : Bool)

/-- Field `pos`. -/
def Node.pos : Node → Vec2
  | .mk p _ _ _ _ _ _ _ => p

/-- Field `scale`. -/
def Node.scale : Node → ℚ
  | .mk _ s _ _ _ _ _ _ => s

/-- Field `center_of_mass`. -/
def Node.com : Node → MassData
  | .mk _ _ c _ _ _ _ _ => c

/-- Field `leaf` (`Node::is_leaf` returns it). -/
def Node.leaf : Node → Bool
  | .mk _ _ _ _ _ _ _ l => l

/-- `self.children[quadrant as usize]`. -/
def Node.child : Node → Quadrant → Option Node
  | .mk _ _ _ c0 _ _ _ _, .nw => c0
  | .mk _ _ _ _ c1 _ _ _, .ne => c1
  | .mk _ _ _ _ _ c2 _ _, .sw => c2
  | .mk _ _ _ _ _ _ c3 _, .se => c3

/-- `self.children[quadrant as usize] = x`. -/
def Node.setChild : Node → Quadrant → Option Node → Node
  | .mk p s c _ c1 c2 c3 l, .nw, x => .mk p s c x c1 c2 c3 l
  | .mk p s c c0 _ c2 c3 l, .ne, x => .mk p s c c0 x c2 c3 l
  | .mk p s c c0 c1 _ c3 l, .sw, x => .mk p s c c0 c1 x c3 l
  | .mk p s c c0 c1 c2 _ l, .se, x => .mk p s c c0 c1 c2 x l

/-- `self.center_of_mass = c`. -/
def Node.setCom : Node → MassData → Node
  | .mk p s _ c0 c1 c2 c3 l, c => .mk p s c c0 c1 c2 c3 l

/-- `self.leaf = l`. -/
def Node.setLeaf : Node → Bool → Node
  | .mk p s c c0 c1 c2 c3 _, l => .mk p s c c0 c1 c2 c3 l

/-- The present children in child-index order, as
`self.children.iter().flatten()` yields them. -/
def Node.presentChildren : Node → List Node
  | .mk _ _ _ c0 c1 c2 c3 _ => c0.toList ++ c1.toList ++ c2.toList ++ c3.toList

mutual

/-- The mass points stored at the leaves of the subtree, in child-index order.
A node with `leaf = true` stores exactly its own aggregate (for a freshly
created root this is the dummy `{position: (0,0), mass: 0}` value). -/
def Node.leafPoints : Node → List MassData
  | .mk _ _ com c0 c1 c2 c3 leaf =>
    if leaf then [com]
    else optPoints c0 ++ optPoints c1 ++ optPoints c2 ++ optPoints c3

/-- `Node.leafPoints` lifted to an optional child. -/
def optPoints : Option Node → List MassData
  | none => []
  | some n => Node.leafPoints n

end

mutual

/-- Every node of the subtree (the node itself first, then the subtrees of the
present children in index order). -/
def Node.allNodes : Node → List Node
  | n@(.mk _ _ _ c0 c1 c2 c3 _) =>
    n :: (optNodes c0 ++ optNodes c1 ++ optNodes c2 ++ optNodes c3)

/-- `Node.allNodes` lifted to an optional child. -/
def optNodes : Option Node → List Node
  | none => []
  | some n => Node.allNodes n

end

/-- `Node::new_root`: an uninitialised leaf with a zero aggregate. -/
def newRoot (pos : Vec2) (scale : ℚ) : Node :=
  .mk pos scale ⟨(0, 0), 0⟩ none none none none true

/-- `Node::new_child`: a leaf covering one quarter of the parent's square,
offset per the quadrant, holding `obj` as its aggregate. -/
def newChild (parent : Node) (q : Quadrant) (obj : MassData) : Node :=
  .mk (parent.pos + q.offset * parent.scale * ((1 : ℚ) / 2)) (parent.scale * (1 / 2)) obj
    none none none none true

/-- The center-of-mass update performed by `Node::insert`:
`position' = (position*mass + obj.position*obj.mass) / (mass + obj.mass)`,
`mass' = mass + obj.mass`. -/
def combine (a b : MassData) : MassData :=
  ⟨(a.position * a.mass + b.position * b.mass) / (a.mass + b.mass), a.mass + b.mass⟩

/-- `Node::insert_into`, with the recursive call to `Node::insert` passed in as
`rec`: clear the leaf flag, then insert into the existing child of that
quadrant, or create the child holding `obj` if absent. -/
def insertIntoAux (rec : Node → MassData → Option Node) (n : Node) (q : Quadrant)
    (obj : MassData) : Option Node :=
  let n1 := n.setLeaf false
  match n1.child q with
  | some c => (rec c obj).map fun c1 => n1.setChild q (some c1)
  | none => some (n1.setChild q (some (newChild n1 q obj)))

/-- `Node::insert`, fuel-indexed.  `none` models the source still recursing
after `fuel` nested `insert` calls (the source has no base case of its own for
coincident points).  Branch order follows the source: a node with zero
aggregate mass stores the point as its aggregate (even a zero-mass point); a
zero-mass point is otherwise skipped; a leaf first pushes its stored occupant
one level down; then the aggregate is updated and the point inserted into its
quadrant's child. -/
def insertF : Nat → Node → MassData → Option Node
  | 0, _, _ => none
  | fuel + 1, n, obj =>
    if n.com.mass = 0 then some (n.setCom obj)
    else if obj.mass = 0 then some n
    else
      let step1 : Option Node :=
        if n.leaf then
          insertIntoAux (insertF fuel) n
            (Quadrant.fromOffset (n.com.position - n.pos) n.scale) n.com
        else some n
      match step1 with
      | none => none
      | some n1 =>
        let n2 := n1.setCom (combine n1.com obj)
        insertIntoAux (insertF fuel) n2
          (Quadrant.fromOffset (obj.position - n2.pos) n2.scale) obj

/-- Insert a list of points one by one (each insertion with the same fuel
budget). -/
def insertAllF (fuel : Nat) : Node → List MassData → Option Node
  | n, [] => some n
  | n, p :: rest =>
    match insertF fuel n p with
    | none => none
    | some t => insertAllF fuel t rest

/-- `Simulation::THETA` (lib.rs): 1.25. -/
def THETA : ℚ := 5 / 4

/-- `Simulation::GRAVITY` (lib.rs): 1e-4. -/
def GRAVITY : ℚ := 1 / 10000

/-- `EPSILON` (tree.rs, `Node::force_on`): 0.05. -/
def EPSILON : ℚ := 1 / 20

/-- `Simulation::SCALE` (lib.rs): 5000. -/
def SCALE : ℚ := 5000

/-- The loop body of `Node::force_on`: breadth-first traversal with an explicit
FIFO queue, accumulating `diff / dist^3 * mass` for each accepted node (with
`G` and `obj.mass` factored out), pushing the present children otherwise. -/
def forcePart (sq : ℚ → ℚ) (obj : MassData) : List Node → Vec2 → Vec2
  | [], acc => acc
  | n :: queue, acc =>
    let diff := n.com.position - obj.position
    let dist := sq (EPSILON + normSq diff)
    if n.scale / dist < THETA ∨ n.leaf then
      forcePart sq obj queue (acc + diff / dist ^ 3 * n.com.mass)
    else
      forcePart sq obj (queue ++ n.presentChildren) acc
termination_by queue _ => (queue.map sizeOf).sum
decreasing_by
  · simp_wf
    rcases n with ⟨p, s, cm, c0, c1, c2, c3, l⟩
    simp_arith
  · simp_wf
    rcases n with ⟨p, s, cm, c0, c1, c2, c3, l⟩
    rcases c0 with _ | c0 <;> rcases c1 with _ | c1 <;> rcases c2 with _ | c2 <;>
      rcases c3 with _ | c3 <;> simp_arith [Node.presentChildren] <;> omega

/-- `Node::force_on` (tree.rs): BFS accumulation, then multiply by
`Simulation::GRAVITY * obj.mass`.  The square root inside `dist` is the
abstract parameter `sq`. -/
def force_on (sq : ℚ → ℚ) (n : Node) (obj : MassData) : Vec2 :=
  GRAVITY * obj.mass * forcePart sq obj [n] 0

/-- The force recursion exactly as the specification describes it: with
`diff = aggregate.position - target.position` and
`dist = sq(EPSILON + ‖diff‖²)`, an accepted node (`scale/dist < THETA` or a
leaf) contributes `G * target.mass * aggregate.mass * diff / dist³`; otherwise
the contributions of the present children are summed. -/
def forceSpec (sq : ℚ → ℚ) (n : Node) (obj : MassData) : Vec2 :=
  let diff := n.com.position - obj.position
  let dist := sq (EPSILON + normSq diff)
  if n.scale / dist < THETA ∨ n.leaf then
    GRAVITY * obj.mass * n.com.mass * (diff / dist ^ 3)
  else
    (n.presentChildren.attach.map (fun c => forceSpec sq c.1 obj)).sum
termination_by sizeOf n
decreasing_by
  simp_wf
  rcases c with ⟨x, hx⟩
  rcases n with ⟨p, s, cm, c0, c1, c2, c3, l⟩
  simp [Node.presentChildren, Option.mem_toList, Option.mem_def] at hx
  rcases hx with h | h | h | h <;> subst h <;> simp_arith

/-- The depth-first recursive force evaluation (the `Node::force_on` shape of
`src/tree.rs`, with the same acceptance test, softening constant, `G` and
`THETA` as the breadth-first variant): an accepted node contributes
`G * diff / dist³ * aggregate.mass * obj.mass`, otherwise the recursive forces
of the present children are summed. -/
def forceDFS (sq : ℚ → ℚ) (n : Node) (obj : MassData) : Vec2 :=
  let diff := n.com.position - obj.position
  let dist := sq (EPSILON + normSq diff)
  if n.scale / dist < THETA ∨ n.leaf then
    GRAVITY * (diff / dist ^ 3) * n.com.mass * obj.mass
  else
    (n.presentChildren.attach.map (fun c => forceDFS sq c.1 obj)).sum
termination_by sizeOf n
decreasing_by
  simp_wf
  rcases c with ⟨x, hx⟩
  rcases n with ⟨p, s, cm, c0, c1, c2, c3, l⟩
  simp [Node.presentChildren, Option.mem_toList, Option.mem_def] at hx
  rcases hx with h | h | h | h <;> subst h <;> simp_arith

/-- `Node::contains`: the half-open square `[pos, pos+scale)` on both axes. -/
def Node.containsPt (n : Node) (p : Vec2) : Prop :=
  n.pos.1 ≤ p.1 ∧ p.1 < n.pos.1 + n.scale ∧ n.pos.2 ≤ p.2 ∧ p.2 < n.pos.2 + n.scale

instance (n : Node) (p : Vec2) : Decidable (n.containsPt p) := by
  unfold Node.containsPt; infer_instance

/-- Membership in the half-open square `[o, o+s)` on both axes. -/
def inHalfOpen (o : Vec2) (s : ℚ) (p : Vec2) : Prop :=
  o.1 ≤ p.1 ∧ p.1 < o.1 + s ∧ o.2 ≤ p.2 ∧ p.2 < o.2 + s

instance (o : Vec2) (s : ℚ) (p : Vec2) : Decidable (inHalfOpen o s p) := by
  unfold inHalfOpen; infer_instance

/-- Membership in the closed square `[o, o+s]` on both axes. -/
def inClosed (o : Vec2) (s : ℚ) (p : Vec2) : Prop :=
  o.1 ≤ p.1 ∧ p.1 ≤ o.1 + s ∧ o.2 ≤ p.2 ∧ p.2 ≤ o.2 + s

instance (o : Vec2) (s : ℚ) (p : Vec2) : Decidable (inClosed o s p) := by
  unfold inClosed; infer_instance

/-- `Star` (lib.rs): a mass point, a velocity, and a colour. -/
structure Star where
  mass_point : MassData
  vel : Vec2
  color : ℚ × ℚ × ℚ
deriving DecidableEq

/-- The root node `Simulation::update` builds:
`Node::new_root(-Vector2::repeat(SCALE / 2.0), SCALE)`. -/
def simRoot : Node := newRoot (-(SCALE / 2), -(SCALE / 2)) SCALE

/-- The tree-building loop of `Simulation::update`: insert the mass point of
every star the (fixed-frame) tree contains, in list order. -/
def buildTreeF (fuel : Nat) : Node → List Star → Option Node
  | t, [] => some t
  | t, s :: rest =>
    if t.containsPt s.mass_point.position then
      match insertF fuel t s.mass_point with
      | none => none
      | some t1 => buildTreeF fuel t1 rest
    else buildTreeF fuel t rest

/-- The force/integration pass of `Simulation::update`, for one star: if the
tree contains the star's position, add `force / mass` to the velocity and then
the new velocity to the position; otherwise leave the star untouched. -/
def stepStar (sq : ℚ → ℚ) (tree : Node) (s : Star) : Star :=
  if tree.containsPt s.mass_point.position then
    let force := force_on sq tree s.mass_point
    let vel1 := s.vel + force / s.mass_point.mass
    { s with vel := vel1, mass_point := ⟨s.mass_point.position + vel1, s.mass_point.mass⟩ }
  else s

/-- The final pass of `Simulation::update`: a star whose (current) position the
tree does not contain has its position overwritten with the sentinel value
(`Vector2::from_element(f32::NAN)` in the source; the unrepresentable NaN is
modelled by the explicit parameter `sentinel`). -/
def markStar (sentinel : Vec2) (tree : Node) (s : Star) : Star :=
  if ¬ tree.containsPt s.mass_point.position then
    { s with mass_point := ⟨sentinel, s.mass_point.mass⟩ }
  else s

/-- `Simulation::update` (lib.rs): build the tree from the in-bounds stars,
apply the fused force/velocity/position pass to every in-bounds star against
that single tree, then overwrite the position of every star now out of bounds
with the sentinel. -/
def updateF (sq : ℚ → ℚ) (sentinel : Vec2) (fuel : Nat) (stars : List Star) :
    Option (List Star) :=
  (buildTreeF fuel simRoot stars).map fun tree =>
    (stars.map (stepStar sq tree)).map (markStar sentinel tree)

/-- The per-node force accumulation term with `G` and `obj.mass` factored out
(what the BFS loop of `Node::force_on` adds per accepted node), extended
recursively over rejected nodes. -/
def forceCore (sq : ℚ → ℚ) (obj : MassData) (n : Node) : Vec2 :=
  let diff := n.com.position - obj.position
  let dist := sq (EPSILON + normSq diff)
  if n.scale / dist < THETA ∨ n.leaf then
    diff / dist ^ 3 * n.com.mass
  else
    (n.presentChildren.attach.map (fun c => forceCore sq obj c.1)).sum
termination_by sizeOf n
decreasing_by
  simp_wf
  rcases c with ⟨x, hx⟩
  rcases n with ⟨p, s, cm, c0, c1, c2, c3, l⟩
  simp [Node.presentChildren, Option.mem_toList, Option.mem_def] at hx
  rcases hx with h | h | h | h <;> subst h <;> simp_arith

/-- Total mass of a list of points. -/
def totalMass (l : List MassData) : ℚ := (l.map MassData.mass).sum

/-- Mass-weighted sum of the positions of a list of points. -/
def weightedSum (l : List MassData) : Vec2 :=
  (l.map (fun p => p.position * p.mass)).sum

/-- The L-infinity distance between two positions (used to bound the
subdivision depth at which two distinct points separate). -/
def deltaInf (a b : Vec2) : ℚ := max |a.1 - b.1| |a.2 - b.2|

/-- Concrete tree used to refute the half-open containment claim: the result
of inserting `(1,1)` then `(2,1)` (masses 1) into a root at `(0,0)` with scale
4.  The point `(2,1)` is routed (tie at exactly half scale on x at every
level) into children whose half-open squares do not contain it. -/
def cexChild2 : Node := Node.mk (0, 0) 1 ⟨(1, 1), 1⟩ none none none none true

/-- The north-east grandchild holding `(2,1)` with square `[1,2) × [0,1)`. -/
def cexChild3 : Node := Node.mk (1, 0) 1 ⟨(2, 1), 1⟩ none none none none true

/-- The north-west child of the counterexample root, square `[0,2) × [0,2)`,
which transitively received the point `(2,1)`. -/
def cexChild : Node :=
  Node.mk (0, 0) 2 ⟨(3 / 2, 1), 2⟩ (some cexChild2) (some cexChild3) none none false

/-- The full counterexample tree. -/
def cexTree : Node :=
  Node.mk (0, 0) 4 ⟨(3 / 2, 1), 2⟩ (some cexChild) none none none false

/-- Concrete one-star instance used to witness the velocity/position update
facts. -/
def w3star : Star := ⟨⟨(1, 2), 3⟩, (4, 5), (6, 7, 8)⟩

/-- Its state after one `Simulation::update` step. -/
def w3out : Star := ⟨⟨(5, 7), 3⟩, (4, 5), (6, 7, 8)⟩

/-- The tree built from `w3star` alone. -/
def w3tree : Node := Node.mk (-2500, -2500) 5000 ⟨(1, 2), 3⟩ none none none none true

/-- An in-bounds star (at the origin, zero velocity). -/
def w7in : Star := ⟨⟨(0, 0), 1⟩, (0, 0), (0, 0, 0)⟩

/-- A star out of bounds at the start of the step. -/
def w7out : Star := ⟨⟨(3000, 0), 1⟩, (2, 2), (0, 0, 0)⟩

/-- The out-of-bounds star after the step: position overwritten with the
sentinel `(9,9)`, velocity and colour kept. -/
def w7outMarked : Star := ⟨⟨(9, 9), 1⟩, (2, 2), (0, 0, 0)⟩

/-- The tree built from `[w7in, w7out]`: it holds only the in-bounds star. -/
def w7tree : Node := Node.mk (-2500, -2500) 5000 ⟨(0, 0), 1⟩ none none none none true

/-- Concrete one-star instance used to witness the frame facts of update. -/
def w9star : Star := ⟨⟨(-3, 4), 2⟩, (1, 0), (1, 2, 3)⟩

/-- Its state after one `Simulation::update` step. -/
def w9out : Star := ⟨⟨(-2, 4), 2⟩, (1, 0), (1, 2, 3)⟩

/-- The structural invariant maintained by insertion on every populated
(nonzero aggregate mass) node: positive aggregate mass, positive scale, a true
leaf flag implies no children, every stored point has positive mass and lies
in the node's closed square, and every present child sits at the quadrant
offset with half the scale and satisfies the invariant itself. -/
inductive Pop : Node → Prop where
  | intro (n : Node)
      (hm : 0 < n.com.mass)
      (hs : 0 < n.scale)
      (hleaf : n.leaf = true → ∀ q, n.child q = none)
      (hpts : ∀ p ∈ n.leafPoints, 0 < p.mass ∧ inClosed n.pos n.scale p.position)
      (hgeom : ∀ q c, n.child q = some c →
        c.pos = n.pos + q.offset * n.scale * ((1 : ℚ) / 2) ∧ c.scale = n.scale * (1 / 2))
      (hch : ∀ q c, n.child q = some c → Pop c) : Pop n

/-! ## Basic simp kit -/

@[simp] theorem Vec2.hmul_def (v : Vec2) (c : ℚ) : v * c = (v.1 * c, v.2 * c) := rfl

@[simp] theorem Vec2.hdiv_def (v : Vec2) (c : ℚ) : v / c = (v.1 / c, v.2 / c) := rfl

@[simp] theorem Vec2.smul_def (c : ℚ) (v : Vec2) : c * v = (c * v.1, c * v.2) := rfl

@[simp] theorem pos_setChild (n : Node) (q : Quadrant) (c : Option Node) :
    (n.setChild q c).pos = n.pos := by
  rcases n with ⟨p, s, cm, c0, c1, c2, c3, l⟩ <;> cases q <;> rfl

@[simp] theorem scale_setChild (n : Node) (q : Quadrant) (c : Option Node) :
    (n.setChild q c).scale = n.scale := by
  rcases n with ⟨p, s, cm, c0, c1, c2, c3, l⟩ <;> cases q <;> rfl

@[simp] theorem com_setChild (n : Node) (q : Quadrant) (c : Option Node) :
    (n.setChild q c).com = n.com := by
  rcases n with ⟨p, s, cm, c0, c1, c2, c3, l⟩ <;> cases q <;> rfl

@[simp] theorem leaf_setChild (n : Node) (q : Quadrant) (c : Option Node) :
    (n.setChild q c).leaf = n.leaf := by
  rcases n with ⟨p, s, cm, c0, c1, c2, c3, l⟩ <;> cases q <;> rfl

theorem child_setChild (n : Node) (q q' : Quadrant) (c : Option Node) :
    (n.setChild q c).child q' = if q' = q then c else n.child q' := by
  rcases n with ⟨p, s, cm, c0, c1, c2, c3, l⟩ <;> cases q <;> cases q' <;>
    simp [Node.child, Node.setChild]

@[simp] theorem pos_setCom (n : Node) (c : MassData) : (n.setCom c).pos = n.pos := by
  rcases n with ⟨p, s, cm, c0, c1, c2, c3, l⟩ <;> rfl

@[simp] theorem scale_setCom (n : Node) (c : MassData) : (n.setCom c).scale = n.scale := by
  rcases n with ⟨p, s, cm, c0, c1, c2, c3, l⟩ <;> rfl

@[simp] theorem com_setCom (n : Node) (c : MassData) : (n.setCom c).com = c := by
  rcases n with ⟨p, s, cm, c0, c1, c2, c3, l⟩ <;> rfl

@[simp] theorem leaf_setCom (n : Node) (c : MassData) : (n.setCom c).leaf = n.leaf := by
  rcases n with ⟨p, s, cm, c0, c1, c2, c3, l⟩ <;> rfl

@[simp] theorem child_setCom (n : Node) (c : MassData) (q : Quadrant) :
    (n.setCom c).child q = n.child q := by
  rcases n with ⟨p, s, cm, c0, c1, c2, c3, l⟩ <;> cases q <;> rfl

@[simp] theorem pos_setLeaf (n : Node) (b : Bool) : (n.setLeaf b).pos = n.pos := by
  rcases n with ⟨p, s, cm, c0, c1, c2, c3, l⟩ <;> rfl

@[simp] theorem scale_setLeaf (n : Node) (b : Bool) : (n.setLeaf b).scale = n.scale := by
  rcases n with ⟨p, s, cm, c0, c1, c2, c3, l⟩ <;> rfl

@[simp] theorem com_setLeaf (n : Node) (b : Bool) : (n.setLeaf b).com = n.com := by
  rcases n with ⟨p, s, cm, c0, c1, c2, c3, l⟩ <;> rfl

@[simp] theorem leaf_setLeaf (n : Node) (b : Bool) : (n.setLeaf b).leaf = b := by
  rcases n with ⟨p, s, cm, c0, c1, c2, c3, l⟩ <;> rfl

@[simp] theorem child_setLeaf (n : Node) (b : Bool) (q : Quadrant) :
    (n.setLeaf b).child q = n.child q := by
  rcases n with ⟨p, s, cm, c0, c1, c2, c3, l⟩ <;> cases q <;> rfl

/-! ## C10: force on an empty freshly created root -/

/-- C10.  For every target mass point (and every square-root realisation and
root geometry), `Node::force_on` applied to a freshly created root node into
which nothing has been inserted returns the zero vector. -/
theorem force_on_newRoot_eq_zero (sq : ℚ → ℚ) (o : Vec2) (s : ℚ) (obj : MassData) :
    force_on sq (newRoot o s) obj = 0 := by
  simp [force_on, forcePart, newRoot, Node.leaf, Node.com, Node.scale, Node.pos,
    Prod.ext_iff]

/-! ## Frame lemmas for insertion -/

theorem insertIntoAux_frame (rec : Node → MassData → Option Node) (n : Node)
    (q : Quadrant) (obj : MassData) (t : Node) (h : insertIntoAux rec n q obj = some t) :
    t.pos = n.pos ∧ t.scale = n.scale ∧ t.com = n.com ∧ t.leaf = false := by
  simp only [insertIntoAux] at h
  split at h
  · rcases Option.map_eq_some'.1 h with ⟨c1, hc1, rfl⟩
    simp
  · cases h
    simp

/-- Unfolding of a successful `Node::insert` step in the main (nonzero-mass)
case, written with `Option.bind`. -/
theorem insertF_eq_bind (fuel : Nat) (n : Node) (obj : MassData)
    (h1 : n.com.mass ≠ 0) (h2 : obj.mass ≠ 0) :
    insertF (fuel + 1) n obj =
      (if n.leaf then
          insertIntoAux (insertF fuel) n
            (Quadrant.fromOffset (n.com.position - n.pos) n.scale) n.com
        else some n).bind fun n1 =>
        insertIntoAux (insertF fuel) (n1.setCom (combine n1.com obj))
          (Quadrant.fromOffset (obj.position - (n1.setCom (combine n1.com obj)).pos)
            (n1.setCom (combine n1.com obj)).scale) obj := by
  simp only [insertF, if_neg h1, if_neg h2]
  cases hstep : (if n.leaf = true then
      insertIntoAux (insertF fuel) n
        (Quadrant.fromOffset (n.com.position - n.pos) n.scale) n.com
    else some n) <;> simp [hstep]

@[simp] theorem some_bind {α β : Type} (a : α) (f : α → Option β) :
    (some a).bind f = f a := rfl

theorem insertIntoAux_of_child_none (rec : Node → MassData → Option Node) {n : Node}
    {q : Quadrant} (obj : MassData) (h : n.child q = none) :
    insertIntoAux rec n q obj =
      some ((n.setLeaf false).setChild q (some (newChild (n.setLeaf false) q obj))) := by
  have h1 : (n.setLeaf false).child q = none := by rw [child_setLeaf]; exact h
  simp only [insertIntoAux, h1]

theorem insertIntoAux_of_child_some (rec : Node → MassData → Option Node) {n : Node}
    {q : Quadrant} (obj : MassData) {c : Node} (h : n.child q = some c) :
    insertIntoAux rec n q obj =
      (rec c obj).map fun c1 => (n.setLeaf false).setChild q (some c1) := by
  have h1 : (n.setLeaf false).child q = some c := by rw [child_setLeaf]; exact h
  simp only [insertIntoAux, h1]

theorem insertF_frame (fuel : Nat) (n : Node) (p : MassData) (t : Node)
    (h : insertF fuel n p = some t) : t.pos = n.pos ∧ t.scale = n.scale := by
  cases fuel with
  | zero => simp [insertF] at h
  | succ fuel =>
    by_cases h1 : n.com.mass = 0
    · simp only [insertF, if_pos h1] at h
      cases h
      simp
    · by_cases h2 : p.mass = 0
      · simp only [insertF, if_neg h1, if_pos h2] at h
        cases h
        exact ⟨rfl, rfl⟩
      · rw [insertF_eq_bind fuel n p h1 h2] at h
        rcases Option.bind_eq_some.1 h with ⟨n1, hn1, hins⟩
        rcases insertIntoAux_frame _ _ _ _ _ hins with ⟨hp, hs, _, _⟩
        have hframe : n1.pos = n.pos ∧ n1.scale = n.scale := by
          by_cases hl : n.leaf = true
          · rw [if_pos hl] at hn1
            rcases insertIntoAux_frame _ _ _ _ _ hn1 with ⟨hp1, hs1, _, _⟩
            exact ⟨hp1, hs1⟩
          · rw [if_neg hl] at hn1
            cases hn1
            exact ⟨rfl, rfl⟩
        simp_all

/-- The aggregate after a successful insertion, directly from the branch
structure of `Node::insert`. -/
theorem insertF_com (fuel : Nat) (n : Node) (p : MassData) (t : Node)
    (h : insertF fuel n p = some t) :
    t.com = if n.com.mass = 0 then p else if p.mass = 0 then n.com else combine n.com p := by
  cases fuel with
  | zero => simp [insertF] at h
  | succ fuel =>
    by_cases h1 : n.com.mass = 0
    · simp only [insertF, if_pos h1] at h
      cases h
      rw [if_pos h1]
      simp
    · by_cases h2 : p.mass = 0
      · simp only [insertF, if_neg h1, if_pos h2] at h
        cases h
        rw [if_neg h1, if_pos h2]
      · rw [insertF_eq_bind fuel n p h1 h2] at h
        rcases Option.bind_eq_some.1 h with ⟨n1, hn1, hins⟩
        rcases insertIntoAux_frame _ _ _ _ _ hins with ⟨_, _, hc, _⟩
        have hcom1 : n1.com = n.com := by
          by_cases hl : n.leaf = true
          · rw [if_pos hl] at hn1
            rcases insertIntoAux_frame _ _ _ _ _ hn1 with ⟨_, _, hc1, _⟩
            exact hc1
          · rw [if_neg hl] at hn1
            cases hn1
            rfl
        rw [if_neg h1, if_neg h2, hc, com_setCom, hcom1]

/-! ## C4: inserting a zero-mass point -/

/-- C4 (amended).  Inserting a zero-mass point into a node whose aggregate
mass is nonzero is a no-op; on a node with zero aggregate mass (e.g. a freshly
created root) the point is instead stored as the node's aggregate (children
and leaf flag unchanged). -/
theorem insert_zero_mass (fuel : Nat) (n : Node) (p : Vec2) :
    insertF (fuel + 1) n ⟨p, 0⟩ = some (if n.com.mass = 0 then n.setCom ⟨p, 0⟩ else n) := by
  by_cases h : n.com.mass = 0 <;> simp [insertF, h]

/-- C4 (counterexample to the claim as stated).  Inserting the zero-mass point
at `(1, 2)` into a freshly created root is **not** a no-op: the root's
aggregate becomes `{position: (1, 2), mass: 0}`, which differs from the fresh
root's aggregate `{position: (0, 0), mass: 0}`. -/
theorem insert_zero_mass_counterexample :
    (insertF 1 (newRoot (0, 0) 4) ⟨(1, 2), 0⟩).map Node.com = some ⟨(1, 2), 0⟩ ∧
      (newRoot (0, 0) 4).com = ⟨(0, 0), 0⟩ ∧
      (⟨(1, 2), 0⟩ : MassData) ≠ ⟨(0, 0), 0⟩ := by
  refine ⟨by simp [insertF, newRoot, Node.com, Node.setCom], by simp [newRoot, Node.com], ?_⟩
  simp only [ne_eq, MassData.mk.injEq, Prod.mk.injEq]
  norm_num

/-! ## Quadrant routing -/

/-- A point of a node's closed square is routed by `Quadrant::from_offset` to
a child whose **closed** square still contains it. -/
theorem fromOffset_inClosed (o : Vec2) (s : ℚ) (p : Vec2) (h : inClosed o s p) :
    inClosed (o + (Quadrant.fromOffset (p - o) s).offset * s * ((1 : ℚ) / 2)) (s * (1 / 2)) p := by
  rcases o with ⟨ox, oy⟩
  rcases p with ⟨px, py⟩
  rcases h with ⟨h1, h2, h3, h4⟩
  simp only [inClosed] at *
  unfold Quadrant.fromOffset
  split_ifs with hx hy hy <;>
    simp only [Quadrant.offset, Vec2.hmul_def, Prod.mk_add_mk, Prod.mk_sub_mk] at * <;>
    refine ⟨by linarith, by linarith, by linarith, by linarith⟩

/-! ## Equivalence of the BFS force loop and the recursive force -/

@[simp] theorem Vec2.smul_zero_vec (c : ℚ) : c * (0 : Vec2) = 0 := by
  simp [Prod.ext_iff]

theorem Vec2.smul_add_vec (c : ℚ) (u v : Vec2) : c * (u + v) = c * u + c * v := by
  rcases u with ⟨u1, u2⟩
  rcases v with ⟨v1, v2⟩
  simp [Prod.ext_iff, Prod.mk_add_mk]
  constructor <;> ring

theorem Vec2.smul_list_sum (c : ℚ) (l : List Vec2) :
    c * l.sum = (l.map (fun v : Vec2 => c * v)).sum := by
  induction l with
  | nil => simp
  | cons x xs ih =>
    rw [List.sum_cons, Vec2.smul_add_vec, ih, List.map_cons, List.sum_cons]

theorem forceCore_eq (sq : ℚ → ℚ) (obj : MassData) (n : Node) :
    forceCore sq obj n =
      (let diff := n.com.position - obj.position
       let dist := sq (EPSILON + normSq diff)
       if n.scale / dist < THETA ∨ n.leaf then
         diff / dist ^ 3 * n.com.mass
       else
         (n.presentChildren.map (forceCore sq obj)).sum) := by
  rw [forceCore]
  simp only [List.attach_map_val]

theorem forcePart_eq_sum (sq : ℚ → ℚ) (obj : MassData) (queue : List Node) (acc : Vec2) :
    forcePart sq obj queue acc = acc + (queue.map (forceCore sq obj)).sum := by
  induction queue, acc using forcePart.induct sq obj with
  | case1 acc => simp [forcePart]
  | case2 n queue acc diff dist h ih =>
    simp only [forcePart, if_pos h, ih, forceCore_eq, List.map_cons, List.sum_cons]
    rw [add_assoc]
  | case3 n queue acc diff dist h ih =>
    simp only [forcePart, if_neg h, ih, forceCore_eq, List.map_cons, List.sum_cons,
      List.map_append, List.sum_append]
    abel

theorem forceSpec_eq_core (sq : ℚ → ℚ) (n : Node) (obj : MassData) :
    forceSpec sq n obj = GRAVITY * obj.mass * forceCore sq obj n := by
  induction n, obj using forceSpec.induct sq with
  | case1 n obj diff dist h =>
    rw [forceSpec, forceCore]
    simp only [if_pos h]
    simp only [Vec2.smul_def, Vec2.hmul_def, Prod.mk.injEq]
    constructor <;> ring
  | case2 n obj diff dist h ih =>
    rw [forceSpec, forceCore]
    simp only [if_neg h, ih]
    rw [Vec2.smul_list_sum]
    simp only [List.map_map, Function.comp_def]

theorem forceDFS_eq_core (sq : ℚ → ℚ) (n : Node) (obj : MassData) :
    forceDFS sq n obj = GRAVITY * obj.mass * forceCore sq obj n := by
  induction n, obj using forceDFS.induct sq with
  | case1 n obj diff dist h =>
    rw [forceDFS, forceCore]
    simp only [if_pos h]
    simp only [Vec2.smul_def, Vec2.hmul_def, Vec2.hdiv_def, Prod.mk.injEq]
    constructor <;> ring
  | case2 n obj diff dist h ih =>
    rw [forceDFS, forceCore]
    simp only [if_neg h, ih]
    rw [Vec2.smul_list_sum]
    simp only [List.map_map, Function.comp_def]

/-! ## C2: the BFS `force_on` computes the specified recursion -/

/-- C2.  The softening constant is positive, and for every built tree node,
every target mass point and every square-root realisation, the queue-based
`Node::force_on` returns exactly the vector computed by the specified
recursion (`forceSpec`): with `diff = aggregate.position - target.position`
and `dist = sq(EPSILON + ‖diff‖²)`, an accepted node (`scale/dist < THETA` or
a leaf) yields `G * target.mass * aggregate.mass * diff / dist³`, and any
other node the sum over its present children. -/
theorem force_on_eq_forceSpec (sq : ℚ → ℚ) (n : Node) (obj : MassData) :
    0 < EPSILON ∧ force_on sq n obj = forceSpec sq n obj := by
  refine ⟨by norm_num [EPSILON], ?_⟩
  rw [force_on, forcePart_eq_sum, forceSpec_eq_core]
  simp

/-! ## C8: DFS and BFS force evaluation agree -/

/-- C8.  For every built tree, every target mass point and every square-root
realisation, the depth-first recursive force evaluation (`forceDFS`, recurse
into every present child and sum) and the breadth-first queue-based evaluation
(`force_on`) compute equal net force vectors, with the same acceptance test,
softening constant, `G` and `THETA`. -/
theorem forceDFS_eq_force_on (sq : ℚ → ℚ) (n : Node) (obj : MassData) :
    forceDFS sq n obj = force_on sq n obj := by
  rw [forceDFS_eq_core, force_on, forcePart_eq_sum]
  simp

/-! ## newChild accessors -/

@[simp] theorem pos_newChild (pa : Node) (q : Quadrant) (o : MassData) :
    (newChild pa q o).pos = pa.pos + q.offset * pa.scale * ((1 : ℚ) / 2) := rfl

@[simp] theorem scale_newChild (pa : Node) (q : Quadrant) (o : MassData) :
    (newChild pa q o).scale = pa.scale * (1 / 2) := rfl

@[simp] theorem com_newChild (pa : Node) (q : Quadrant) (o : MassData) :
    (newChild pa q o).com = o := rfl

@[simp] theorem leaf_newChild (pa : Node) (q : Quadrant) (o : MassData) :
    (newChild pa q o).leaf = true := rfl

@[simp] theorem child_newChild (pa : Node) (q q' : Quadrant) (o : MassData) :
    (newChild pa q o).child q' = none := by
  cases q' <;> rfl

theorem leafPoints_of_leaf {n : Node} (h : n.leaf = true) : n.leafPoints = [n.com] := by
  rcases n with ⟨p, s, cm, c0, c1, c2, c3, l⟩
  simp only [Node.leaf] at h
  subst h
  simp [Node.leafPoints, Node.com]

theorem leafPoints_of_not_leaf {n : Node} (h : n.leaf = false) :
    n.leafPoints = optPoints (n.child .nw) ++ optPoints (n.child .ne) ++
      optPoints (n.child .sw) ++ optPoints (n.child .se) := by
  rcases n with ⟨p, s, cm, c0, c1, c2, c3, l⟩
  simp only [Node.leaf] at h
  subst h
  simp [Node.leafPoints, Node.child]

/-! ## C5: no duplicate guard — coincident insertion never terminates -/

/-- Inserting a point whose position coincides with the single occupant of a
childless leaf never succeeds, for any amount of fuel: the source recursion
subdivides into the same quadrant forever. -/
theorem insertF_coincident_none (fuel : Nat) :
    ∀ (n : Node) (p : MassData), n.leaf = true → (∀ q, n.child q = none) →
      n.com.mass ≠ 0 → p.mass ≠ 0 → p.position = n.com.position →
      insertF fuel n p = none := by
  induction fuel with
  | zero => intro n p _ _ _ _ _; simp [insertF]
  | succ fuel ih =>
    intro n p hl hch hm hp hpos
    rw [insertF_eq_bind fuel n p hm hp, if_pos hl,
      insertIntoAux_of_child_none (insertF fuel) n.com
        (hch (Quadrant.fromOffset (n.com.position - n.pos) n.scale)),
      some_bind]
    set qc := Quadrant.fromOffset (n.com.position - n.pos) n.scale with hqc
    set C := newChild (n.setLeaf false) qc n.com with hC
    set n1 := (n.setLeaf false).setChild qc (some C) with hn1
    have hqp :
        Quadrant.fromOffset (p.position - (n1.setCom (combine n1.com p)).pos)
          (n1.setCom (combine n1.com p)).scale = qc := by
      rw [pos_setCom, scale_setCom, hn1, pos_setChild, scale_setChild, pos_setLeaf,
        scale_setLeaf, hpos, hqc]
    rw [hqp]
    have hc2 : (n1.setCom (combine n1.com p)).child qc = some C := by
      rw [child_setCom, hn1, child_setChild]
      simp
    rw [insertIntoAux_of_child_some (insertF fuel) p hc2]
    have hrec : insertF fuel C p = none := by
      refine ih C p ?_ ?_ ?_ hp ?_
      · rw [hC, leaf_newChild]
      · intro q; rw [hC, child_newChild]
      · rw [hC, com_newChild]; exact hm
      · rw [hC, com_newChild]; exact hpos
    rw [hrec]
    rfl

/-- C5.  The `gravsim-simulation` variant of `Node::insert` has **no**
positional-tolerance duplicate guard and no depth cutoff: after inserting the
point `{(0,0), mass 1}` into the simulation root, inserting a second point at
the *same* position never terminates (it returns `none` for every fuel bound,
i.e. the source recurses forever), and hence inserting the two coincident
points one after the other into the fresh root fails for every fuel bound. -/
theorem insert_coincident_never_terminates :
    insertF 1 simRoot ⟨(0, 0), 1⟩ = some (simRoot.setCom ⟨(0, 0), 1⟩) ∧
      (∀ fuel, insertF fuel (simRoot.setCom ⟨(0, 0), 1⟩) ⟨(0, 0), 1⟩ = none) ∧
      (∀ fuel, insertAllF fuel simRoot [⟨(0, 0), 1⟩, ⟨(0, 0), 1⟩] = none) := by
  have h2 : ∀ fuel, insertF fuel (simRoot.setCom ⟨(0, 0), 1⟩) ⟨(0, 0), 1⟩ = none := by
    intro fuel
    refine insertF_coincident_none fuel _ _ ?_ ?_ ?_ ?_ ?_
    · simp [simRoot, newRoot, Node.setCom, Node.leaf]
    · intro q; cases q <;> simp [simRoot, newRoot, Node.setCom, Node.child]
    · simp [simRoot, newRoot, Node.setCom, Node.com]
    · norm_num
    · simp [simRoot, newRoot, Node.setCom, Node.com]
  refine ⟨by simp [insertF, simRoot, newRoot, Node.com], h2, ?_⟩
  intro fuel
  cases fuel with
  | zero => simp [insertAllF, insertF]
  | succ k =>
    have h1k : insertF (k + 1) simRoot ⟨(0, 0), 1⟩ = some (simRoot.setCom ⟨(0, 0), 1⟩) := by
      simp [insertF, simRoot, newRoot, Node.com]
    simp only [insertAllF, h1k, h2 (k + 1)]

/-! ## Pop inversion and multiset bookkeeping -/

theorem Pop.mass_pos {n : Node} (h : Pop n) : 0 < n.com.mass := by
  cases h; assumption

theorem Pop.scale_pos {n : Node} (h : Pop n) : 0 < n.scale := by
  cases h; assumption

theorem Pop.child_none {n : Node} (h : Pop n) (hl : n.leaf = true) (q : Quadrant) :
    n.child q = none := by
  cases h with
  | intro n hm hs hleaf hpts hgeom hch => exact hleaf hl q

theorem Pop.pts {n : Node} (h : Pop n) :
    ∀ p ∈ n.leafPoints, 0 < p.mass ∧ inClosed n.pos n.scale p.position := by
  cases h with
  | intro n hm hs hleaf hpts hgeom hch => exact hpts

theorem Pop.geom {n : Node} (h : Pop n) {q : Quadrant} {c : Node} (hc : n.child q = some c) :
    c.pos = n.pos + q.offset * n.scale * ((1 : ℚ) / 2) ∧ c.scale = n.scale * (1 / 2) := by
  cases h with
  | intro n hm hs hleaf hpts hgeom hch => exact hgeom q c hc

theorem Pop.child_pop {n : Node} (h : Pop n) {q : Quadrant} {c : Node}
    (hc : n.child q = some c) : Pop c := by
  cases h with
  | intro n hm hs hleaf hpts hgeom hch => exact hch q c hc

/-- A childless leaf with positive mass and scale whose occupant lies in its
closed square satisfies the insertion invariant. -/
theorem Pop_leaf_single {n : Node} (hleaf : n.leaf = true)
    (hchild : ∀ q, n.child q = none) (hm : 0 < n.com.mass) (hs : 0 < n.scale)
    (hin : inClosed n.pos n.scale n.com.position) : Pop n := by
  refine Pop.intro n hm hs (fun _ q => hchild q) ?_ ?_ ?_
  · intro p hp
    rw [leafPoints_of_leaf hleaf] at hp
    rcases List.mem_singleton.1 hp with rfl
    exact ⟨hm, hin⟩
  · intro q c hc
    rw [hchild q] at hc
    cases hc
  · intro q c hc
    rw [hchild q] at hc
    cases hc

theorem leafPointsM_not_leaf {n : Node} (hl : n.leaf = false) :
    (n.leafPoints : Multiset MassData) =
      (optPoints (n.child .nw) : Multiset MassData) + (optPoints (n.child .ne)) +
        (optPoints (n.child .sw)) + (optPoints (n.child .se)) := by
  rw [leafPoints_of_not_leaf hl]
  rfl

/-- Updating one child slot adds that slot's new points and removes the old
ones (stated additively to avoid multiset subtraction). -/
theorem leafPointsM_setChild (X : Node) (hl : X.leaf = false) (q : Quadrant)
    (c1 : Option Node) :
    ((X.setChild q c1).leafPoints : Multiset MassData) + (optPoints (X.child q)) =
      (optPoints c1 : Multiset MassData) + (X.leafPoints : Multiset MassData) := by
  have hl2 : (X.setChild q c1).leaf = false := by rw [leaf_setChild]; exact hl
  rw [leafPointsM_not_leaf hl2, leafPointsM_not_leaf hl]
  cases q <;> simp only [child_setChild, reduceIte] <;> abel

@[simp] theorem combine_mass (a b : MassData) : (combine a b).mass = a.mass + b.mass := rfl

theorem leafPointsM_single_child {X : Node} (hl : X.leaf = false) (q : Quadrant) (c : Node)
    (h : ∀ q', X.child q' = if q' = q then some c else none) :
    (X.leafPoints : Multiset MassData) = (c.leafPoints : Multiset MassData) := by
  rw [leafPointsM_not_leaf hl, h, h, h, h]
  cases q <;> simp [optPoints]

theorem leafPointsM_same_children {X n : Node} (hX : X.leaf = false) (hn : n.leaf = false)
    (h : ∀ q, X.child q = n.child q) :
    (X.leafPoints : Multiset MassData) = (n.leafPoints : Multiset MassData) := by
  rw [leafPointsM_not_leaf hX, leafPointsM_not_leaf hn, h, h, h, h]

theorem pts_from_multiset {t n : Node} {p : MassData}
    (hM : (t.leafPoints : Multiset MassData) = p ::ₘ (n.leafPoints : Multiset MassData))
    (hpop : Pop n) (hpm : 0 < p.mass) (hpin : inClosed n.pos n.scale p.position) :
    ∀ pt ∈ t.leafPoints, 0 < pt.mass ∧ inClosed n.pos n.scale pt.position := by
  intro pt hpt
  have hmem : pt ∈ (t.leafPoints : Multiset MassData) := Multiset.mem_coe.2 hpt
  rw [hM] at hmem
  rcases Multiset.mem_cons.1 hmem with rfl | hmem2
  · exact ⟨hpm, hpin⟩
  · exact hpop.pts pt (Multiset.mem_coe.1 hmem2)

/-- Assembling the invariant for a node of the form `Y.setChild q (some z)`. -/
theorem Pop_assemble {Y : Node} {q : Quadrant} {z : Node} {basepos : Vec2} {bases : ℚ}
    (hYleaf : Y.leaf = false) (hYpos : Y.pos = basepos) (hYscale : Y.scale = bases)
    (hmass : 0 < Y.com.mass) (hs : 0 < bases)
    (hrest : ∀ q' c, q' ≠ q → Y.child q' = some c →
      (c.pos = basepos + q'.offset * bases * ((1 : ℚ) / 2) ∧ c.scale = bases * (1 / 2)) ∧ Pop c)
    (hz : z.pos = basepos + q.offset * bases * ((1 : ℚ) / 2)) (hzs : z.scale = bases * (1 / 2))
    (hzpop : Pop z)
    (hpts : ∀ pt ∈ (Y.setChild q (some z)).leafPoints,
      0 < pt.mass ∧ inClosed basepos bases pt.position) :
    Pop (Y.setChild q (some z)) := by
  refine Pop.intro _ ?_ ?_ ?_ ?_ ?_ ?_
  · rw [com_setChild]; exact hmass
  · rw [scale_setChild, hYscale]; exact hs
  · intro hcontra
    rw [leaf_setChild, hYleaf] at hcontra
    cases hcontra
  · intro pt hpt
    rw [pos_setChild, scale_setChild, hYpos, hYscale]
    exact hpts pt hpt
  · intro q' c hc
    rw [pos_setChild, scale_setChild, hYpos, hYscale, child_setChild] at *
    by_cases hq' : q' = q
    · rw [if_pos hq'] at hc
      cases hc
      subst hq'
      exact ⟨hz, hzs⟩
    · rw [if_neg hq'] at hc
      exact (hrest q' c hq' hc).1
  · intro q' c hc
    rw [child_setChild] at hc
    by_cases hq' : q' = q
    · rw [if_pos hq'] at hc
      cases hc
      exact hzpop
    · rw [if_neg hq'] at hc
      exact (hrest q' c hq' hc).2

/-- Every successful insertion of a positive-mass point lying in the node's
closed square preserves the invariant, and the stored multiset of points grows
by exactly that point. -/
theorem insertF_preserves :
    ∀ (fuel : Nat) (n : Node) (p : MassData) (t : Node),
      insertF fuel n p = some t → Pop n → 0 < p.mass →
      inClosed n.pos n.scale p.position →
      Pop t ∧ (t.leafPoints : Multiset MassData) = p ::ₘ (n.leafPoints : Multiset MassData) := by
  intro fuel
  induction fuel with
  | zero => intro n p t h _ _ _; simp [insertF] at h
  | succ fuel ih =>
    intro n p t h hpop hpm hpin
    have hm0 : n.com.mass ≠ 0 := ne_of_gt hpop.mass_pos
    have hpm0 : p.mass ≠ 0 := ne_of_gt hpm
    rw [insertF_eq_bind fuel n p hm0 hpm0] at h
    rcases Option.bind_eq_some.1 h with ⟨n1, hn1, hins⟩
    by_cases hl : n.leaf = true
    · -- leaf: the stored occupant n.com is pushed down into a fresh child first
      rw [if_pos hl] at hn1
      set qc := Quadrant.fromOffset (n.com.position - n.pos) n.scale with hqcdef
      rw [insertIntoAux_of_child_none (insertF fuel) n.com (hpop.child_none hl qc)] at hn1
      cases hn1
      set C := newChild (n.setLeaf false) qc n.com with hCdef
      set X := (n.setLeaf false).setChild qc (some C) with hXdef
      have hcomin : inClosed n.pos n.scale n.com.position :=
        (hpop.pts n.com (by rw [leafPoints_of_leaf hl]; exact List.mem_singleton_self _)).2
      have hCpos : C.pos = n.pos + qc.offset * n.scale * ((1 : ℚ) / 2) := by
        rw [hCdef, pos_newChild, pos_setLeaf, scale_setLeaf]
      have hCscale : C.scale = n.scale * (1 / 2) := by
        rw [hCdef, scale_newChild, scale_setLeaf]
      have hCcom : C.com = n.com := by rw [hCdef, com_newChild]
      have hCleaf : C.leaf = true := by rw [hCdef, leaf_newChild]
      have hCchild : ∀ q, C.child q = none := fun q => by rw [hCdef, child_newChild]
      have hCin : inClosed C.pos C.scale n.com.position := by
        rw [hCpos, hCscale, hqcdef]
        exact fromOffset_inClosed n.pos n.scale n.com.position hcomin
      have hCpop : Pop C :=
        Pop_leaf_single hCleaf hCchild (by rw [hCcom]; exact hpop.mass_pos)
          (by rw [hCscale]; have := hpop.scale_pos; linarith)
          (by rw [hCcom]; exact hCin)
      have hXcom : X.com = n.com := by rw [hXdef, com_setChild, com_setLeaf]
      have hXpos2 : (X.setCom (combine X.com p)).pos = n.pos := by
        rw [pos_setCom, hXdef, pos_setChild, pos_setLeaf]
      have hXscale2 : (X.setCom (combine X.com p)).scale = n.scale := by
        rw [scale_setCom, hXdef, scale_setChild, scale_setLeaf]
      rw [hXpos2, hXscale2] at hins
      set qp := Quadrant.fromOffset (p.position - n.pos) n.scale with hqpdef
      set Y := (X.setCom (combine X.com p)).setLeaf false with hYdef
      have hYpos : Y.pos = n.pos := by rw [hYdef, pos_setLeaf, hXpos2]
      have hYscale : Y.scale = n.scale := by rw [hYdef, scale_setLeaf, hXscale2]
      have hYcom : Y.com = combine n.com p := by
        rw [hYdef, com_setLeaf, com_setCom, hXcom]
      have hYleaf : Y.leaf = false := by rw [hYdef, leaf_setLeaf]
      have hYchild : ∀ q', Y.child q' = if q' = qc then some C else none := by
        intro q'
        rw [hYdef, child_setLeaf, child_setCom, hXdef, child_setChild]
        by_cases hq' : q' = qc
        · rw [if_pos hq', if_pos hq']
        · rw [if_neg hq', if_neg hq', child_setLeaf, hpop.child_none hl q']
      have hYmass : 0 < Y.com.mass := by
        rw [hYcom, combine_mass]
        have := hpop.mass_pos
        linarith
      have hMY : (Y.leafPoints : Multiset MassData) = (C.leafPoints : Multiset MassData) :=
        leafPointsM_single_child hYleaf qc C hYchild
      have hMC : (C.leafPoints : Multiset MassData) = {n.com} := by
        rw [leafPoints_of_leaf hCleaf, hCcom]
        rfl
      have hMn : (n.leafPoints : Multiset MassData) = {n.com} := by
        rw [leafPoints_of_leaf hl]
        rfl
      have hrestY : ∀ q2 c, q2 ≠ qp → Y.child q2 = some c →
          (c.pos = n.pos + q2.offset * n.scale * ((1 : ℚ) / 2) ∧
            c.scale = n.scale * (1 / 2)) ∧ Pop c := by
        intro q2 c _ hc
        rw [hYchild] at hc
        by_cases hq2 : q2 = qc
        · rw [if_pos hq2] at hc
          cases hc
          subst hq2
          exact ⟨⟨hCpos, hCscale⟩, hCpop⟩
        · rw [if_neg hq2] at hc
          cases hc
      by_cases hq : qp = qc
      · -- same quadrant: recurse into the fresh child C
        have hchild2 : (X.setCom (combine X.com p)).child qp = some C := by
          rw [child_setCom, hXdef, child_setChild, if_pos hq]
        rw [insertIntoAux_of_child_some (insertF fuel) p hchild2] at hins
        rcases Option.map_eq_some'.1 hins with ⟨c1, hc1, rfl⟩
        have hpinC : inClosed C.pos C.scale p.position := by
          rw [hCpos, hCscale, ← hq, hqpdef]
          exact fromOffset_inClosed n.pos n.scale p.position hpin
        obtain ⟨hc1pop, hc1M⟩ := ih C p c1 hc1 hCpop hpm hpinC
        obtain ⟨hc1pos, hc1scale⟩ := insertF_frame fuel C p c1 hc1
        have hYqp : Y.child qp = some C := by rw [hYchild, if_pos hq]
        have hMt :
            ((Y.setChild qp (some c1)).leafPoints : Multiset MassData) =
              p ::ₘ (n.leafPoints : Multiset MassData) := by
          have h5 := leafPointsM_setChild Y hYleaf qp (some c1)
          rw [hYqp] at h5
          simp only [optPoints] at h5
          rw [hMY, hc1M, hMC] at h5
          rw [hMn]
          exact add_right_cancel h5
        refine ⟨?_, hMt⟩
        refine Pop_assemble hYleaf hYpos hYscale hYmass hpop.scale_pos hrestY ?_ ?_ hc1pop
          (pts_from_multiset hMt hpop hpm hpin)
        · rw [hc1pos, hCpos, hq]
        · rw [hc1scale, hCscale]
      · -- different quadrant: a second fresh child holds the new point
        have hchild2 : (X.setCom (combine X.com p)).child qp = none := by
          rw [child_setCom, hXdef, child_setChild, if_neg hq, child_setLeaf,
            hpop.child_none hl qp]
        rw [insertIntoAux_of_child_none (insertF fuel) p hchild2] at hins
        cases hins
        set D := newChild Y qp p with hDdef
        have hDpos : D.pos = n.pos + qp.offset * n.scale * ((1 : ℚ) / 2) := by
          rw [hDdef, pos_newChild, hYpos, hYscale]
        have hDscale : D.scale = n.scale * (1 / 2) := by
          rw [hDdef, scale_newChild, hYscale]
        have hDpop : Pop D := by
          refine Pop_leaf_single (by rw [hDdef, leaf_newChild])
            (fun q2 => by rw [hDdef, child_newChild]) ?_ ?_ ?_
          · rw [hDdef, com_newChild]; exact hpm
          · rw [hDscale]; have := hpop.scale_pos; linarith
          · rw [hDdef, com_newChild, ← hDdef, hDpos, hDscale, hqpdef]
            exact fromOffset_inClosed n.pos n.scale p.position hpin
        have hMt :
            ((Y.setChild qp (some D)).leafPoints : Multiset MassData) =
              p ::ₘ (n.leafPoints : Multiset MassData) := by
          have h5 := leafPointsM_setChild Y hYleaf qp (some D)
          rw [hYchild, if_neg hq] at h5
          simp only [optPoints] at h5
          rw [hMY, hMC,
            leafPoints_of_leaf (show D.leaf = true by rw [hDdef, leaf_newChild])] at h5
          rw [hDdef, com_newChild] at h5
          rw [hMn]
          simpa using h5
        refine ⟨?_, hMt⟩
        exact Pop_assemble hYleaf hYpos hYscale hYmass hpop.scale_pos hrestY hDpos hDscale
          hDpop (pts_from_multiset hMt hpop hpm hpin)
    · -- internal node: no push, insert straight into the point's quadrant
      rw [if_neg hl] at hn1
      cases hn1
      have hlf : n.leaf = false := by
        rcases Bool.eq_false_or_eq_true n.leaf with h' | h'
        · exact absurd h' hl
        · exact h'
      have hpos2 : (n.setCom (combine n.com p)).pos = n.pos := by rw [pos_setCom]
      have hscale2 : (n.setCom (combine n.com p)).scale = n.scale := by rw [scale_setCom]
      rw [hpos2, hscale2] at hins
      set qp := Quadrant.fromOffset (p.position - n.pos) n.scale with hqpdef
      set Y := (n.setCom (combine n.com p)).setLeaf false with hYdef
      have hYpos : Y.pos = n.pos := by rw [hYdef, pos_setLeaf, pos_setCom]
      have hYscale : Y.scale = n.scale := by rw [hYdef, scale_setLeaf, scale_setCom]
      have hYcom : Y.com = combine n.com p := by rw [hYdef, com_setLeaf, com_setCom]
      have hYleaf : Y.leaf = false := by rw [hYdef, leaf_setLeaf]
      have hYchild : ∀ q', Y.child q' = n.child q' := by
        intro q'
        rw [hYdef, child_setLeaf, child_setCom]
      have hYmass : 0 < Y.com.mass := by
        rw [hYcom, combine_mass]
        have := hpop.mass_pos
        linarith
      have hMY : (Y.leafPoints : Multiset MassData) = (n.leafPoints : Multiset MassData) :=
        leafPointsM_same_children hYleaf hlf hYchild
      have hrestY : ∀ q2 c, q2 ≠ qp → Y.child q2 = some c →
          (c.pos = n.pos + q2.offset * n.scale * ((1 : ℚ) / 2) ∧
            c.scale = n.scale * (1 / 2)) ∧ Pop c := by
        intro q2 c _ hc
        rw [hYchild] at hc
        exact ⟨hpop.geom hc, hpop.child_pop hc⟩
      rcases hoc : n.child qp with _ | c
      · -- no child in that quadrant yet: create it
        have hchild2 : (n.setCom (combine n.com p)).child qp = none := by
          rw [child_setCom, hoc]
        rw [insertIntoAux_of_child_none (insertF fuel) p hchild2] at hins
        cases hins
        set D := newChild Y qp p with hDdef
        have hDpos : D.pos = n.pos + qp.offset * n.scale * ((1 : ℚ) / 2) := by
          rw [hDdef, pos_newChild, hYpos, hYscale]
        have hDscale : D.scale = n.scale * (1 / 2) := by
          rw [hDdef, scale_newChild, hYscale]
        have hDpop : Pop D := by
          refine Pop_leaf_single (by rw [hDdef, leaf_newChild])
            (fun q2 => by rw [hDdef, child_newChild]) ?_ ?_ ?_
          · rw [hDdef, com_newChild]; exact hpm
          · rw [hDscale]; have := hpop.scale_pos; linarith
          · rw [hDdef, com_newChild, ← hDdef, hDpos, hDscale, hqpdef]
            exact fromOffset_inClosed n.pos n.scale p.position hpin
        have hMt :
            ((Y.setChild qp (some D)).leafPoints : Multiset MassData) =
              p ::ₘ (n.leafPoints : Multiset MassData) := by
          have h5 := leafPointsM_setChild Y hYleaf qp (some D)
          rw [hYchild, hoc] at h5
          simp only [optPoints] at h5
          rw [hMY, leafPoints_of_leaf (show D.leaf = true by rw [hDdef, leaf_newChild])] at h5
          rw [hDdef, com_newChild] at h5
          simpa using h5
        refine ⟨?_, hMt⟩
        exact Pop_assemble hYleaf hYpos hYscale hYmass hpop.scale_pos hrestY hDpos hDscale
          hDpop (pts_from_multiset hMt hpop hpm hpin)
      · -- an existing child: recurse
        have hchild2 : (n.setCom (combine n.com p)).child qp = some c := by
          rw [child_setCom, hoc]
        rw [insertIntoAux_of_child_some (insertF fuel) p hchild2] at hins
        rcases Option.map_eq_some'.1 hins with ⟨c1, hc1, rfl⟩
        have hcgeom := hpop.geom hoc
        have hpinc : inClosed c.pos c.scale p.position := by
          rw [hcgeom.1, hcgeom.2, hqpdef]
          exact fromOffset_inClosed n.pos n.scale p.position hpin
        obtain ⟨hc1pop, hc1M⟩ := ih c p c1 hc1 (hpop.child_pop hoc) hpm hpinc
        obtain ⟨hc1pos, hc1scale⟩ := insertF_frame fuel c p c1 hc1
        have hMt :
            ((Y.setChild qp (some c1)).leafPoints : Multiset MassData) =
              p ::ₘ (n.leafPoints : Multiset MassData) := by
          have h5 := leafPointsM_setChild Y hYleaf qp (some c1)
          rw [hYchild, hoc] at h5
          simp only [optPoints] at h5
          rw [hMY, hc1M] at h5
          -- h5 : M_t + M_c = (p ::ₘ M_c) + M_n
          have h6 : ((Y.setChild qp (some c1)).leafPoints : Multiset MassData) +
              (c.leafPoints : Multiset MassData) =
              (p ::ₘ (n.leafPoints : Multiset MassData)) + (c.leafPoints : Multiset MassData) := by
            rw [h5]
            rw [← Multiset.singleton_add, ← Multiset.singleton_add]
            abel
          exact add_right_cancel h6
        refine ⟨?_, hMt⟩
        refine Pop_assemble hYleaf hYpos hYscale hYmass hpop.scale_pos hrestY ?_ ?_ hc1pop
          (pts_from_multiset hMt hpop hpm hpin)
        · rw [hc1pos, hcgeom.1]
        · rw [hc1scale, hcgeom.2]

/-! ## Fuel monotonicity -/

theorem insertIntoAux_mono {fuel : Nat} {n : Node} {q : Quadrant} {obj : MassData} {m : Node}
    (ih : ∀ c p t, insertF fuel c p = some t → insertF (fuel + 1) c p = some t)
    (h : insertIntoAux (insertF fuel) n q obj = some m) :
    insertIntoAux (insertF (fuel + 1)) n q obj = some m := by
  rcases hc : n.child q with _ | c
  · rw [insertIntoAux_of_child_none _ _ hc] at h ⊢
    exact h
  · rw [insertIntoAux_of_child_some _ _ hc] at h ⊢
    rcases Option.map_eq_some'.1 h with ⟨c1, hc1, rfl⟩
    rw [ih c obj c1 hc1]
    rfl

theorem insertF_mono :
    ∀ (fuel : Nat) (n : Node) (p : MassData) (t : Node),
      insertF fuel n p = some t → insertF (fuel + 1) n p = some t := by
  intro fuel
  induction fuel with
  | zero => intro n p t h; simp [insertF] at h
  | succ fuel ih =>
    intro n p t h
    by_cases h1 : n.com.mass = 0
    · simp only [insertF, if_pos h1] at h ⊢
      exact h
    · by_cases h2 : p.mass = 0
      · simp only [insertF, if_neg h1, if_pos h2] at h ⊢
        exact h
      · rw [insertF_eq_bind fuel n p h1 h2] at h
        rw [insertF_eq_bind (fuel + 1) n p h1 h2]
        rcases Option.bind_eq_some.1 h with ⟨n1, hn1, hins⟩
        by_cases hl : n.leaf = true
        · rw [if_pos hl] at hn1 ⊢
          exact Option.bind_eq_some.2 ⟨n1, insertIntoAux_mono ih hn1, insertIntoAux_mono ih hins⟩
        · rw [if_neg hl] at hn1 ⊢
          cases hn1
          exact Option.bind_eq_some.2 ⟨n, rfl, insertIntoAux_mono ih hins⟩

theorem insertF_mono_le {fuel fuel' : Nat} (hle : fuel ≤ fuel') {n : Node} {p : MassData}
    {t : Node} (h : insertF fuel n p = some t) : insertF fuel' n p = some t := by
  induction fuel', hle using Nat.le_induction with
  | base => exact h
  | succ m hm ih => exact insertF_mono m n p t ih

/-- The points of a child are among the points of its (internal) parent. -/
theorem leafPoints_child_subset {n c : Node} (hl : n.leaf = false) {q : Quadrant}
    (hc : n.child q = some c) : ∀ x ∈ c.leafPoints, x ∈ n.leafPoints := by
  intro x hx
  rw [leafPoints_of_not_leaf hl]
  cases q <;> rw [hc] <;> simp [optPoints, List.mem_append] <;> tauto

/-! ## Termination of insertion for distinct points -/

/-- Inserting a point into a (populated) leaf succeeds for some fuel whenever
the point's position differs from the stored occupant's: at every level the
two points either separate into different quadrants or descend into a child
of half the scale, and once the scale drops below their L-infinity distance
they cannot share a quadrant. `d` bounds the number of halvings needed. -/
theorem insertF_total_leaf :
    ∀ (d : Nat) (n : Node) (p : MassData), Pop n → n.leaf = true → 0 < p.mass →
      p.position ≠ n.com.position → inClosed n.pos n.scale p.position →
      n.scale < 2 ^ d * deltaInf p.position n.com.position →
      ∃ fuel t, insertF fuel n p = some t := by
  intro d
  induction d with
  | zero =>
    intro n p hpop hl hpm hne hpin hlt
    exfalso
    have hcomin : inClosed n.pos n.scale n.com.position :=
      (hpop.pts n.com (by rw [leafPoints_of_leaf hl]; exact List.mem_singleton_self _)).2
    rcases hpin with ⟨a1, a2, a3, a4⟩
    rcases hcomin with ⟨b1, b2, b3, b4⟩
    have h1 : |p.position.1 - n.com.position.1| ≤ n.scale :=
      abs_le.2 ⟨by linarith, by linarith⟩
    have h2 : |p.position.2 - n.com.position.2| ≤ n.scale :=
      abs_le.2 ⟨by linarith, by linarith⟩
    have h3 : deltaInf p.position n.com.position ≤ n.scale := max_le h1 h2
    rw [pow_zero, one_mul] at hlt
    linarith
  | succ d ihd =>
    intro n p hpop hl hpm hne hpin hlt
    have hm0 : n.com.mass ≠ 0 := ne_of_gt hpop.mass_pos
    have hpm0 : p.mass ≠ 0 := ne_of_gt hpm
    have hcomin : inClosed n.pos n.scale n.com.position :=
      (hpop.pts n.com (by rw [leafPoints_of_leaf hl]; exact List.mem_singleton_self _)).2
    set qc := Quadrant.fromOffset (n.com.position - n.pos) n.scale with hqcdef
    set qp := Quadrant.fromOffset (p.position - n.pos) n.scale with hqpdef
    set C := newChild (n.setLeaf false) qc n.com with hCdef
    set X := (n.setLeaf false).setChild qc (some C) with hXdef
    have hCpos : C.pos = n.pos + qc.offset * n.scale * ((1 : ℚ) / 2) := by
      rw [hCdef, pos_newChild, pos_setLeaf, scale_setLeaf]
    have hCscale : C.scale = n.scale * (1 / 2) := by
      rw [hCdef, scale_newChild, scale_setLeaf]
    have hCcom : C.com = n.com := by rw [hCdef, com_newChild]
    have hCleaf : C.leaf = true := by rw [hCdef, leaf_newChild]
    have hCchild : ∀ q, C.child q = none := fun q => by rw [hCdef, child_newChild]
    have hCin : inClosed C.pos C.scale n.com.position := by
      rw [hCpos, hCscale, hqcdef]
      exact fromOffset_inClosed n.pos n.scale n.com.position hcomin
    have hCpop : Pop C :=
      Pop_leaf_single hCleaf hCchild (by rw [hCcom]; exact hpop.mass_pos)
        (by rw [hCscale]; have := hpop.scale_pos; linarith)
        (by rw [hCcom]; exact hCin)
    have hXpos2 : (X.setCom (combine X.com p)).pos = n.pos := by
      rw [pos_setCom, hXdef, pos_setChild, pos_setLeaf]
    have hXscale2 : (X.setCom (combine X.com p)).scale = n.scale := by
      rw [scale_setCom, hXdef, scale_setChild, scale_setLeaf]
    by_cases hq : qp = qc
    · have hpinC : inClosed C.pos C.scale p.position := by
        rw [hCpos, hCscale, ← hq, hqpdef]
        exact fromOffset_inClosed n.pos n.scale p.position hpin
      have hCdist : p.position ≠ C.com.position := by rw [hCcom]; exact hne
      have hscaleC : C.scale < 2 ^ d * deltaInf p.position C.com.position := by
        rw [hCscale, hCcom]
        rw [pow_succ] at hlt
        linarith
      obtain ⟨fuel, c1, hc1⟩ := ihd C p hCpop hCleaf hpm hCdist hpinC hscaleC
      have hchild2 : (X.setCom (combine X.com p)).child qp = some C := by
        rw [child_setCom, hXdef, child_setChild, if_pos hq]
      exact ⟨fuel + 1, _, by
        rw [insertF_eq_bind fuel n p hm0 hpm0, if_pos hl,
          insertIntoAux_of_child_none (insertF fuel) n.com (hpop.child_none hl qc), some_bind]
        rw [hXpos2, hXscale2, ← hqpdef]
        rw [insertIntoAux_of_child_some (insertF fuel) p hchild2, hc1]
        rfl⟩
    · have hchild2 : (X.setCom (combine X.com p)).child qp = none := by
        rw [child_setCom, hXdef, child_setChild, if_neg hq, child_setLeaf,
          hpop.child_none hl qp]
      exact ⟨0 + 1, _, by
        rw [insertF_eq_bind 0 n p hm0 hpm0, if_pos hl,
          insertIntoAux_of_child_none (insertF 0) n.com (hpop.child_none hl qc), some_bind]
        rw [hXpos2, hXscale2, ← hqpdef]
        rw [insertIntoAux_of_child_none (insertF 0) p hchild2]⟩

theorem deltaInf_pos {a b : Vec2} (h : a ≠ b) : 0 < deltaInf a b := by
  rcases lt_or_eq_of_le (le_max_iff.2 (Or.inl (abs_nonneg (a.1 - b.1))) :
      (0 : ℚ) ≤ deltaInf a b) with h' | h'
  · exact h'
  · exfalso
    apply h
    have h1 : |a.1 - b.1| ≤ 0 := le_trans (le_max_left _ _) h'.symm.le
    have h2 : |a.2 - b.2| ≤ 0 := le_trans (le_max_right _ _) h'.symm.le
    have e1 : a.1 = b.1 := by
      have := abs_nonneg (a.1 - b.1)
      have : |a.1 - b.1| = 0 := le_antisymm h1 this
      have := abs_eq_zero.1 this
      linarith
    have e2 : a.2 = b.2 := by
      have := abs_nonneg (a.2 - b.2)
      have : |a.2 - b.2| = 0 := le_antisymm h2 this
      have := abs_eq_zero.1 this
      linarith
    exact Prod.ext e1 e2

/-- Inserting a positive-mass point whose position differs from every stored
point of a populated tree succeeds for some fuel. -/
theorem insertF_total (p : MassData) (hpm : 0 < p.mass) :
    ∀ n : Node, Pop n → (∀ x ∈ n.leafPoints, x.position ≠ p.position) →
      inClosed n.pos n.scale p.position → ∃ fuel t, insertF fuel n p = some t := by
  intro n hpop
  induction hpop with
  | intro n hm hs hleaf hpts hgeom hch ih =>
    intro hdist hpin
    have hpop2 : Pop n := Pop.intro n hm hs hleaf hpts hgeom hch
    have hm0 : n.com.mass ≠ 0 := ne_of_gt hm
    have hpm0 : p.mass ≠ 0 := ne_of_gt hpm
    by_cases hl : n.leaf = true
    · have hne : p.position ≠ n.com.position :=
        Ne.symm (hdist n.com (by rw [leafPoints_of_leaf hl]; exact List.mem_singleton_self _))
      have hdpos : 0 < deltaInf p.position n.com.position := deltaInf_pos hne
      obtain ⟨d, hd⟩ :=
        pow_unbounded_of_one_lt (n.scale / deltaInf p.position n.com.position) one_lt_two
      have hscale : n.scale < 2 ^ d * deltaInf p.position n.com.position :=
        (div_lt_iff₀ hdpos).1 hd
      exact insertF_total_leaf d n p hpop2 hl hpm hne hpin hscale
    · have hlf : n.leaf = false := by
        rcases Bool.eq_false_or_eq_true n.leaf with h' | h'
        · exact absurd h' hl
        · exact h'
      set qp := Quadrant.fromOffset (p.position - n.pos) n.scale with hqpdef
      have hpos2 : (n.setCom (combine n.com p)).pos = n.pos := by rw [pos_setCom]
      have hscale2 : (n.setCom (combine n.com p)).scale = n.scale := by rw [scale_setCom]
      rcases hoc : n.child qp with _ | c
      · have hchild2 : (n.setCom (combine n.com p)).child qp = none := by
          rw [child_setCom, hoc]
        exact ⟨0 + 1, _, by
          rw [insertF_eq_bind 0 n p hm0 hpm0, if_neg hl, some_bind]
          rw [hpos2, hscale2, ← hqpdef]
          rw [insertIntoAux_of_child_none (insertF 0) p hchild2]⟩
      · have hgeomc := hgeom qp c hoc
        have hpinc : inClosed c.pos c.scale p.position := by
          rw [hgeomc.1, hgeomc.2, hqpdef]
          exact fromOffset_inClosed n.pos n.scale p.position hpin
        have hdistc : ∀ x ∈ c.leafPoints, x.position ≠ p.position := fun x hx =>
          hdist x (leafPoints_child_subset hlf hoc x hx)
        obtain ⟨fuel, t1, ht1⟩ := ih qp c hoc hdistc hpinc
        have hchild2 : (n.setCom (combine n.com p)).child qp = some c := by
          rw [child_setCom, hoc]
        exact ⟨fuel + 1, _, by
          rw [insertF_eq_bind fuel n p hm0 hpm0, if_neg hl, some_bind]
          rw [hpos2, hscale2, ← hqpdef]
          rw [insertIntoAux_of_child_some (insertF fuel) p hchild2, ht1]
          rfl⟩

theorem insertAllF_mono_le {fuel fuel2 : Nat} (hle : fuel ≤ fuel2) :
    ∀ {l : List MassData} {n t : Node},
      insertAllF fuel n l = some t → insertAllF fuel2 n l = some t := by
  intro l
  induction l with
  | nil => intro n t h; simpa [insertAllF] using h
  | cons p rest ih =>
    intro n t h
    rcases hstep : insertF fuel n p with _ | t1
    · rw [insertAllF, hstep] at h
      cases h
    · rw [insertAllF, hstep] at h
      rw [insertAllF, insertF_mono_le hle hstep]
      exact ih h

theorem inClosed_of_inHalfOpen {o : Vec2} {s : ℚ} {p : Vec2} (h : inHalfOpen o s p) :
    inClosed o s p :=
  ⟨h.1, le_of_lt h.2.1, h.2.2.1, le_of_lt h.2.2.2⟩

/-- Folding a list of pairwise-distinct, in-square, positive-mass insertions
over a populated tree succeeds for some fuel and has the expected aggregate,
invariant and stored points. -/
theorem insertAllF_total :
    ∀ (l : List MassData) (n : Node), Pop n →
      (∀ p ∈ l, 0 < p.mass) →
      (∀ p ∈ l, inClosed n.pos n.scale p.position) →
      (∀ p ∈ l, ∀ x ∈ n.leafPoints, x.position ≠ p.position) →
      l.Pairwise (fun a b => a.position ≠ b.position) →
      ∃ fuel t, insertAllF fuel n l = some t ∧ Pop t ∧ t.pos = n.pos ∧ t.scale = n.scale ∧
        (t.leafPoints : Multiset MassData) = ↑l + (n.leafPoints : Multiset MassData) ∧
        t.com = l.foldl combine n.com := by
  intro l
  induction l with
  | nil =>
    intro n hpop _ _ _ _
    exact ⟨0, n, rfl, hpop, rfl, rfl, by simp, rfl⟩
  | cons p rest ih =>
    intro n hpop hmass hin hdist hpair
    have hpm : 0 < p.mass := hmass p (List.mem_cons_self _ _)
    have hpin : inClosed n.pos n.scale p.position := hin p (List.mem_cons_self _ _)
    obtain ⟨f1, t1, ht1⟩ :=
      insertF_total p hpm n hpop (hdist p (List.mem_cons_self _ _)) hpin
    obtain ⟨ht1pop, ht1M⟩ := insertF_preserves f1 n p t1 ht1 hpop hpm hpin
    obtain ⟨ht1pos, ht1scale⟩ := insertF_frame f1 n p t1 ht1
    have ht1com : t1.com = combine n.com p := by
      rw [insertF_com f1 n p t1 ht1, if_neg (ne_of_gt hpop.mass_pos), if_neg (ne_of_gt hpm)]
    have hmass2 : ∀ q ∈ rest, 0 < q.mass := fun q hq => hmass q (List.mem_cons_of_mem _ hq)
    have hin2 : ∀ q ∈ rest, inClosed t1.pos t1.scale q.position := by
      intro q hq
      rw [ht1pos, ht1scale]
      exact hin q (List.mem_cons_of_mem _ hq)
    have hdist2 : ∀ q ∈ rest, ∀ x ∈ t1.leafPoints, x.position ≠ q.position := by
      intro q hq x hx
      have hxM : x ∈ (t1.leafPoints : Multiset MassData) := Multiset.mem_coe.2 hx
      rw [ht1M] at hxM
      rcases Multiset.mem_cons.1 hxM with rfl | hxn
      · exact (List.pairwise_cons.1 hpair).1 q hq
      · exact hdist q (List.mem_cons_of_mem _ hq) x (Multiset.mem_coe.1 hxn)
    have hpair2 := (List.pairwise_cons.1 hpair).2
    obtain ⟨f2, t, ht2, htpop, htpos, htscale, htM, htcom⟩ :=
      ih t1 ht1pop hmass2 hin2 hdist2 hpair2
    refine ⟨max f1 f2, t, ?_, htpop, by rw [htpos, ht1pos], by rw [htscale, ht1scale], ?_, ?_⟩
    · have h1 : insertF (max f1 f2) n p = some t1 := insertF_mono_le (le_max_left _ _) ht1
      have h2 : insertAllF (max f1 f2) t1 rest = some t :=
        insertAllF_mono_le (le_max_right _ _) ht2
      simp only [insertAllF, h1, h2]
    · rw [htM, ht1M, ← Multiset.cons_coe, ← Multiset.singleton_add, ← Multiset.singleton_add]
      abel
    · rw [htcom, ht1com]
      rfl

theorem foldl_combine_mass (l : List MassData) :
    ∀ a : MassData, (l.foldl combine a).mass = a.mass + totalMass l := by
  induction l with
  | nil => intro a; simp [totalMass]
  | cons x xs ih =>
    intro a
    rw [List.foldl_cons, ih, combine_mass]
    simp [totalMass]
    ring

theorem foldl_combine_moment (l : List MassData) :
    ∀ a : MassData, 0 < a.mass → (∀ x ∈ l, 0 < x.mass) →
      (l.foldl combine a).position * (l.foldl combine a).mass =
        a.position * a.mass + weightedSum l := by
  induction l with
  | nil => intro a _ _; simp [weightedSum, Prod.ext_iff]
  | cons x xs ih =>
    intro a ha hall
    have hxm := hall x (List.mem_cons_self _ _)
    have hmpos : 0 < (combine a x).mass := by rw [combine_mass]; linarith
    rw [List.foldl_cons, ih (combine a x) hmpos (fun y hy => hall y (List.mem_cons_of_mem _ hy))]
    have hmne : a.mass + x.mass ≠ 0 := ne_of_gt (by linarith)
    have hkey : (combine a x).position * (combine a x).mass =
        a.position * a.mass + x.position * x.mass := by
      simp only [combine, Vec2.hmul_def, Vec2.hdiv_def, Prod.mk_add_mk, Prod.mk.injEq]
      constructor <;> exact div_mul_cancel₀ _ hmne
    rw [hkey]
    simp only [weightedSum, List.map_cons, List.sum_cons]
    rw [add_assoc]

theorem totalMass_nonneg {l : List MassData} (h : ∀ x ∈ l, 0 < x.mass) : 0 ≤ totalMass l := by
  refine List.sum_nonneg ?_
  intro m hm
  rcases List.mem_map.1 hm with ⟨x, hx, rfl⟩
  exact le_of_lt (h x hx)

theorem foldl_combine_position (l : List MassData) (a : MassData) (ha : 0 < a.mass)
    (hall : ∀ x ∈ l, 0 < x.mass) :
    (l.foldl combine a).position =
      (a.position * a.mass + weightedSum l) / (a.mass + totalMass l) := by
  have hm := foldl_combine_mass l a
  have hmo := foldl_combine_moment l a ha hall
  rw [hm] at hmo
  have hpos : 0 < a.mass + totalMass l :=
    add_pos_of_pos_of_nonneg ha (totalMass_nonneg hall)
  have hne : a.mass + totalMass l ≠ 0 := ne_of_gt hpos
  have h1 := congrArg Prod.fst hmo
  have h2 := congrArg Prod.snd hmo
  simp only [Vec2.hmul_def, Vec2.hdiv_def] at h1 h2 ⊢
  refine Prod.ext ?_ ?_
  · rw [eq_div_iff hne]
    exact h1
  · rw [eq_div_iff hne]
    exact h2

/-- Inserting a list of positive-mass, pairwise-distinct, in-square points
into a freshly created root succeeds for some fuel, and the root aggregate is
the total mass and mass-weighted average position. -/
theorem insertAll_root_spec (o : Vec2) (s : ℚ) (l : List MassData) (hs : 0 < s)
    (hmass : ∀ p ∈ l, 0 < p.mass)
    (hdistinct : l.Pairwise (fun a b => a.position ≠ b.position))
    (hin : ∀ p ∈ l, inHalfOpen o s p.position) :
    ∃ fuel t, insertAllF fuel (newRoot o s) l = some t ∧
      t.com.mass = totalMass l ∧ t.com.position = weightedSum l / totalMass l := by
  cases l with
  | nil =>
    refine ⟨0, newRoot o s, rfl, ?_, ?_⟩
    · simp [newRoot, Node.com, totalMass]
    · simp [newRoot, Node.com, totalMass, weightedSum, Prod.ext_iff]
  | cons p rest =>
    have hpm : 0 < p.mass := hmass p (List.mem_cons_self _ _)
    set root1 : Node := Node.mk o s p none none none none true with hroot1
    have h1 : ∀ f, insertF (f + 1) (newRoot o s) p = some root1 := by
      intro f
      simp [insertF, newRoot, Node.com, Node.setCom, hroot1]
    have hpop1 : Pop root1 := by
      refine Pop_leaf_single rfl (fun q => by cases q <;> rfl) hpm hs ?_
      exact inClosed_of_inHalfOpen (hin p (List.mem_cons_self _ _))
    have hlf1 : root1.leafPoints = [p] := leafPoints_of_leaf rfl
    obtain ⟨f2, t, ht2, htpop, htpos, htscale, htM, htcom⟩ :=
      insertAllF_total rest root1 hpop1
        (fun q hq => hmass q (List.mem_cons_of_mem _ hq))
        (fun q hq => inClosed_of_inHalfOpen (hin q (List.mem_cons_of_mem _ hq)))
        (by
          intro q hq x hx
          rw [hlf1] at hx
          rcases List.mem_singleton.1 hx with rfl
          exact (List.pairwise_cons.1 hdistinct).1 q hq)
        (List.pairwise_cons.1 hdistinct).2
    refine ⟨f2 + 1, t, ?_, ?_, ?_⟩
    · have hrun : insertAllF (f2 + 1) root1 rest = some t :=
        insertAllF_mono_le (Nat.le_succ _) ht2
      simp only [insertAllF, h1 f2, hrun]
    · rw [htcom]
      have := foldl_combine_mass rest root1.com
      rw [this]
      simp [hroot1, Node.com, totalMass]
    · rw [htcom]
      have := foldl_combine_position rest root1.com
        (by rw [hroot1]; exact hpm) (fun q hq => hmass q (List.mem_cons_of_mem _ hq))
      rw [this]
      simp only [hroot1, Node.com, totalMass, weightedSum, List.map_cons, List.sum_cons]

/-- C1.  For every finite list of mass points with positive masses and
pairwise-distinct positions, all inside the root's half-open square, inserting
them one by one via `Node::insert` into a freshly created root succeeds (for
some fuel bound, i.e. the source terminates), the root's aggregate mass is the
sum of the masses, its aggregate position is the mass-weighted average of the
positions, and both results are the same for any permutation of the insertion
order (exact arithmetic). -/
theorem insertAll_mass_centroid_perm (o : Vec2) (s : ℚ) (l l2 : List MassData)
    (hperm : l.Perm l2) (hs : 0 < s)
    (hmass : ∀ p ∈ l, 0 < p.mass)
    (hdistinct : l.Pairwise (fun a b => a.position ≠ b.position))
    (hin : ∀ p ∈ l, inHalfOpen o s p.position) :
    ∃ fuel t fuel2 t2,
      insertAllF fuel (newRoot o s) l = some t ∧
      insertAllF fuel2 (newRoot o s) l2 = some t2 ∧
      t.com.mass = totalMass l ∧
      t.com.position = weightedSum l / totalMass l ∧
      t2.com.mass = t.com.mass ∧ t2.com.position = t.com.position := by
  have hsymm : Symmetric (fun a b : MassData => a.position ≠ b.position) :=
    fun a b hab => Ne.symm hab
  have hmass2 : ∀ p ∈ l2, 0 < p.mass := fun p hp => hmass p (hperm.mem_iff.2 hp)
  have hdistinct2 : l2.Pairwise (fun a b => a.position ≠ b.position) :=
    (hperm.pairwise_iff fun hab => Ne.symm hab).1 hdistinct
  have hin2 : ∀ p ∈ l2, inHalfOpen o s p.position := fun p hp =>
    hin p (hperm.mem_iff.2 hp)
  have htm : totalMass l2 = totalMass l := by
    unfold totalMass
    exact (List.Perm.sum_eq (hperm.map MassData.mass)).symm
  have hws : weightedSum l2 = weightedSum l := by
    unfold weightedSum
    exact (List.Perm.sum_eq (hperm.map (fun p : MassData => p.position * p.mass))).symm
  obtain ⟨fuel, t, hrun, hm, hp⟩ := insertAll_root_spec o s l hs hmass hdistinct hin
  obtain ⟨fuel2, t2, hrun2, hm2, hp2⟩ := insertAll_root_spec o s l2 hs hmass2 hdistinct2 hin2
  exact ⟨fuel, t, fuel2, t2, hrun, hrun2, hm, hp, by rw [hm2, hm, htm],
    by rw [hp2, hp, htm, hws]⟩

/-- C1 witness: a concrete two-point instance and its reversal. -/
theorem insertAll_mass_centroid_perm_witness :
    ∃ fuel t fuel2 t2,
      insertAllF fuel (newRoot (0, 0) 4) [⟨(1, 1), 1⟩, ⟨(2, 3), 2⟩] = some t ∧
      insertAllF fuel2 (newRoot (0, 0) 4) [⟨(2, 3), 2⟩, ⟨(1, 1), 1⟩] = some t2 ∧
      t.com.mass = totalMass [⟨(1, 1), 1⟩, ⟨(2, 3), 2⟩] ∧
      t.com.position = weightedSum [⟨(1, 1), 1⟩, ⟨(2, 3), 2⟩] /
        totalMass [⟨(1, 1), 1⟩, ⟨(2, 3), 2⟩] ∧
      t2.com.mass = t.com.mass ∧ t2.com.position = t.com.position := by
  refine insertAll_mass_centroid_perm (0, 0) 4 _ _ (List.Perm.swap _ _ _) (by norm_num)
    ?_ ?_ ?_
  · intro p hp
    simp only [List.mem_cons, List.mem_singleton, List.not_mem_nil, or_false] at hp
    rcases hp with rfl | rfl <;> norm_num
  · refine List.Pairwise.cons ?_ (List.pairwise_singleton _ _)
    intro b hb
    rcases List.mem_singleton.1 hb with rfl
    norm_num [Prod.ext_iff]
  · intro p hp
    simp only [List.mem_cons, List.mem_singleton, List.not_mem_nil, or_false] at hp
    rcases hp with rfl | rfl <;> norm_num [inHalfOpen]

/-! ## C6: containment -/

theorem insertAllF_preserves :
    ∀ (l : List MassData) (fuel : Nat) (n t : Node),
      insertAllF fuel n l = some t → Pop n →
      (∀ p ∈ l, 0 < p.mass) → (∀ p ∈ l, inClosed n.pos n.scale p.position) →
      Pop t ∧ t.pos = n.pos ∧ t.scale = n.scale := by
  intro l
  induction l with
  | nil =>
    intro fuel n t h hpop _ _
    cases h
    exact ⟨hpop, rfl, rfl⟩
  | cons p rest ih =>
    intro fuel n t h hpop hmass hin
    rcases hstep : insertF fuel n p with _ | t1
    · rw [insertAllF, hstep] at h
      cases h
    · rw [insertAllF, hstep] at h
      have hpm : 0 < p.mass := hmass p (List.mem_cons_self _ _)
      have hpin : inClosed n.pos n.scale p.position := hin p (List.mem_cons_self _ _)
      obtain ⟨ht1pop, _⟩ := insertF_preserves fuel n p t1 hstep hpop hpm hpin
      obtain ⟨ht1pos, ht1scale⟩ := insertF_frame fuel n p t1 hstep
      obtain ⟨htpop, htpos, htscale⟩ := ih fuel t1 t h ht1pop
        (fun q hq => hmass q (List.mem_cons_of_mem _ hq))
        (fun q hq => by rw [ht1pos, ht1scale]; exact hin q (List.mem_cons_of_mem _ hq))
      exact ⟨htpop, by rw [htpos, ht1pos], by rw [htscale, ht1scale]⟩

theorem allNodes_eq (n : Node) :
    n.allNodes = n :: (optNodes (n.child .nw) ++ optNodes (n.child .ne) ++
      optNodes (n.child .sw) ++ optNodes (n.child .se)) := by
  rcases n with ⟨p, s, cm, c0, c1, c2, c3, l⟩
  simp [Node.allNodes, Node.child]

/-- In a populated tree, every node's stored points lie in that node's
**closed** square. -/
theorem allNodes_inClosed : ∀ (n : Node), Pop n →
    ∀ m ∈ n.allNodes, ∀ p ∈ m.leafPoints,
      0 < p.mass ∧ inClosed m.pos m.scale p.position := by
  intro n hpop
  induction hpop with
  | intro n hm hs hleaf hpts hgeom hch ih =>
    intro m hmem p hp
    rw [allNodes_eq] at hmem
    rcases List.mem_cons.1 hmem with rfl | hmem2
    · exact hpts p hp
    · have main : ∀ q, m ∈ optNodes (n.child q) →
          0 < p.mass ∧ inClosed m.pos m.scale p.position := by
        intro q hq
        rcases hc : n.child q with _ | c
        · rw [hc] at hq
          simp [optNodes] at hq
        · rw [hc] at hq
          exact ih q c hc m hq p hp
      rcases List.mem_append.1 hmem2 with h3 | h3
      · rcases List.mem_append.1 h3 with h4 | h4
        · rcases List.mem_append.1 h4 with h5 | h5
          · exact main .nw h5
          · exact main .ne h5
        · exact main .sw h4
      · exact main .se h3

/-- C6 (amended).  In a tree built by inserting positive-mass points lying in
the root's half-open square into a freshly created root, every node's stored
points (every point inserted into it, directly or transitively) lie within
that node's **closed** square `[origin, origin+scale]` on both axes.  (The
half-open version of the claim is false: a point whose offset is exactly
`scale/2` on an axis is routed to the lower child, on whose upper boundary it
lies; see the counterexample.) -/
theorem insertAll_closed_containment (o : Vec2) (s : ℚ) (l : List MassData) (fuel : Nat)
    (t : Node) (hs : 0 < s) (hmass : ∀ p ∈ l, 0 < p.mass)
    (hin : ∀ p ∈ l, inHalfOpen o s p.position)
    (hrun : insertAllF fuel (newRoot o s) l = some t) :
    ∀ m ∈ t.allNodes, ∀ p ∈ m.leafPoints, 0 < p.mass →
      inClosed m.pos m.scale p.position := by
  cases l with
  | nil =>
    cases hrun
    intro m hmem p hp hpm
    rw [allNodes_eq] at hmem
    rcases List.mem_cons.1 hmem with rfl | hmem2
    · rw [leafPoints_of_leaf (show (newRoot o s).leaf = true from rfl)] at hp
      rcases List.mem_singleton.1 hp with rfl
      simp [newRoot, Node.com] at hpm
    · simp [newRoot, Node.child, optNodes] at hmem2
  | cons p rest =>
    cases fuel with
    | zero => simp [insertAllF, insertF] at hrun
    | succ f =>
      have hstep : insertF (f + 1) (newRoot o s) p =
          some (Node.mk o s p none none none none true) := by
        simp [insertF, newRoot, Node.com, Node.setCom]
      rw [insertAllF, hstep] at hrun
      have hpop1 : Pop (Node.mk o s p none none none none true) := by
        refine Pop_leaf_single rfl (fun q => by cases q <;> rfl)
          (hmass p (List.mem_cons_self _ _)) hs ?_
        exact inClosed_of_inHalfOpen (hin p (List.mem_cons_self _ _))
      obtain ⟨htpop, _, _⟩ := insertAllF_preserves rest (f + 1) _ t hrun hpop1
        (fun q hq => hmass q (List.mem_cons_of_mem _ hq))
        (fun q hq => inClosed_of_inHalfOpen (hin q (List.mem_cons_of_mem _ hq)))
      intro m hmem q hq _
      exact (allNodes_inClosed t htpop m hmem q hq).2

/-- C6 witness: one point inserted into a small concrete root, instantiated
at the root node itself and its single stored point. -/
theorem insertAll_closed_containment_witness :
    inClosed (Node.mk (0, 0) 4 ⟨(1, 1), 1⟩ none none none none true).pos
      (Node.mk (0, 0) 4 ⟨(1, 1), 1⟩ none none none none true).scale
      ((⟨(1, 1), 1⟩ : MassData)).position := by
  refine insertAll_closed_containment (0, 0) 4 [⟨(1, 1), 1⟩] 1
    (Node.mk (0, 0) 4 ⟨(1, 1), 1⟩ none none none none true) (by norm_num) ?_ ?_ ?_
    (Node.mk (0, 0) 4 ⟨(1, 1), 1⟩ none none none none true)
    (by rw [allNodes_eq]; exact List.mem_cons_self _ _) ⟨(1, 1), 1⟩
    (by
      rw [@leafPoints_of_leaf (Node.mk (0, 0) 4 ⟨(1, 1), 1⟩ none none none none true) rfl]
      exact List.mem_singleton_self _) (by norm_num)
  · intro p hp
    rcases List.mem_singleton.1 hp with rfl
    norm_num
  · intro p hp
    rcases List.mem_singleton.1 hp with rfl
    norm_num [inHalfOpen]
  · simp [insertAllF, insertF, newRoot, Node.com, Node.setCom]

/-- C6 (counterexample to the half-open claim as stated).  Building the tree
from `(1,1)` and `(2,1)` (root `[0,4)²`): the north-west child of the root has
the half-open square `[0,2) × [0,2)`, yet the point `(2,1)` was inserted
transitively into it (it is among the child's stored leaf points) and does
**not** lie in that half-open square — the tie at offset exactly `scale/2` is
routed to the lower-index quadrant, whose half-open square excludes it. -/
theorem containment_counterexample :
    insertAllF 3 (newRoot (0, 0) 4) [⟨(1, 1), 1⟩, ⟨(2, 1), 1⟩] = some cexTree ∧
      cexTree.child .nw = some cexChild ∧
      (⟨(2, 1), 1⟩ : MassData) ∈ cexChild.leafPoints ∧
      ¬ inHalfOpen cexChild.pos cexChild.scale (2, 1) := by
  refine ⟨?_, by simp [cexTree, cexChild, Node.child], ?_, ?_⟩
  · norm_num [insertAllF, insertF, insertIntoAux, newRoot, newChild, Node.com, Node.setCom,
      Node.setLeaf, Node.setChild, Node.child, Node.pos, Node.scale, Node.leaf,
      Quadrant.fromOffset, Quadrant.offset, combine, cexTree, cexChild, cexChild2, cexChild3]
  · simp [cexChild, Node.leafPoints, optPoints, cexChild2, cexChild3]
  · norm_num [inHalfOpen, cexChild, Node.pos, Node.scale]

/-! ## Simulation step: frame facts -/

theorem stepStar_mass (sq : ℚ → ℚ) (tree : Node) (s : Star) :
    (stepStar sq tree s).mass_point.mass = s.mass_point.mass := by
  unfold stepStar
  split_ifs <;> rfl

theorem stepStar_color (sq : ℚ → ℚ) (tree : Node) (s : Star) :
    (stepStar sq tree s).color = s.color := by
  unfold stepStar
  split_ifs <;> rfl

theorem markStar_mass (sentinel : Vec2) (tree : Node) (s : Star) :
    (markStar sentinel tree s).mass_point.mass = s.mass_point.mass := by
  unfold markStar
  split_ifs <;> rfl

theorem markStar_color (sentinel : Vec2) (tree : Node) (s : Star) :
    (markStar sentinel tree s).color = s.color := by
  unfold markStar
  split_ifs <;> rfl

theorem updateF_eq {sq : ℚ → ℚ} {sentinel : Vec2} {fuel : Nat} {stars : List Star}
    {tree : Node} (h : buildTreeF fuel simRoot stars = some tree) :
    updateF sq sentinel fuel stars =
      some ((stars.map (stepStar sq tree)).map (markStar sentinel tree)) := by
  rw [updateF, h]
  rfl

/-! ## C9: update touches only velocity and position -/

/-- C9.  For every call to `Simulation::update` (any square-root realisation,
sentinel, fuel bound and star list for which the tree build succeeds), the
body collection keeps its length and index order — the result is a per-index
map of the input — and every body's mass and colour are unchanged. -/
theorem update_preserves_bodies (sq : ℚ → ℚ) (sentinel : Vec2) (fuel : Nat)
    (stars out : List Star) (h : updateF sq sentinel fuel stars = some out) :
    out.length = stars.length ∧
      ∀ i (hi : i < stars.length) (hi2 : i < out.length),
        (out.get ⟨i, hi2⟩).mass_point.mass = (stars.get ⟨i, hi⟩).mass_point.mass ∧
        (out.get ⟨i, hi2⟩).color = (stars.get ⟨i, hi⟩).color := by
  rcases hb : buildTreeF fuel simRoot stars with _ | tree
  · rw [updateF, hb] at h
    cases h
  · rw [updateF_eq hb] at h
    cases h
    constructor
    · simp
    · intro i hi hi2
      simp only [List.get_eq_getElem, List.getElem_map]
      exact ⟨(markStar_mass _ _ _).trans (stepStar_mass _ _ _),
        (markStar_color _ _ _).trans (stepStar_color _ _ _)⟩

theorem stepStar_of_contains {sq : ℚ → ℚ} {tree : Node} {s : Star}
    (h : tree.containsPt s.mass_point.position) :
    stepStar sq tree s =
      ⟨⟨s.mass_point.position + (s.vel + force_on sq tree s.mass_point / s.mass_point.mass),
        s.mass_point.mass⟩,
        s.vel + force_on sq tree s.mass_point / s.mass_point.mass, s.color⟩ := by
  rw [stepStar, if_pos h]

theorem markStar_of_contains {sentinel : Vec2} {tree : Node} {s : Star}
    (h : tree.containsPt s.mass_point.position) :
    markStar sentinel tree s = s := by
  rw [markStar, if_neg (not_not_intro h)]

theorem markStar_of_not_contains {sentinel : Vec2} {tree : Node} {s : Star}
    (h : ¬ tree.containsPt s.mass_point.position) :
    markStar sentinel tree s = ⟨⟨sentinel, s.mass_point.mass⟩, s.vel, s.color⟩ := by
  rw [markStar, if_pos h]

/-! ## C3: velocity and position update -/

set_option maxHeartbeats 1600000 in
/-- C3 (amended).  For every in-bounds body, the new velocity is the old
velocity plus `force/mass` where `force` is `Node::force_on` evaluated on the
single tree built at the start of the step (the same snapshot for every body,
unaffected by position changes applied during the step); the new position is
the old position plus the new velocity, **unless** that new position lies
outside the root's bounds, in which case the final pass of
`Simulation::update` overwrites it with the sentinel (NaN in the source). -/
theorem update_velocity_position (sq : ℚ → ℚ) (sentinel : Vec2) (fuel : Nat)
    (stars out : List Star) (tree : Node)
    (hb : buildTreeF fuel simRoot stars = some tree)
    (h : updateF sq sentinel fuel stars = some out) :
    ∀ i (hi : i < stars.length) (hi2 : i < out.length),
      tree.containsPt (stars.get ⟨i, hi⟩).mass_point.position →
      (out.get ⟨i, hi2⟩).vel = (stars.get ⟨i, hi⟩).vel +
        force_on sq tree (stars.get ⟨i, hi⟩).mass_point /
          (stars.get ⟨i, hi⟩).mass_point.mass ∧
      (out.get ⟨i, hi2⟩).mass_point.position =
        (if tree.containsPt ((stars.get ⟨i, hi⟩).mass_point.position +
            ((stars.get ⟨i, hi⟩).vel + force_on sq tree (stars.get ⟨i, hi⟩).mass_point /
              (stars.get ⟨i, hi⟩).mass_point.mass))
         then (stars.get ⟨i, hi⟩).mass_point.position +
            ((stars.get ⟨i, hi⟩).vel + force_on sq tree (stars.get ⟨i, hi⟩).mass_point /
              (stars.get ⟨i, hi⟩).mass_point.mass)
         else sentinel) := by
  rw [updateF_eq hb] at h
  cases h
  intro i hi hi2 hc
  simp only [List.get_eq_getElem] at hc ⊢
  simp only [List.getElem_map]
  rw [stepStar_of_contains hc]
  by_cases hcc : tree.containsPt (stars[i].mass_point.position +
      (stars[i].vel + force_on sq tree stars[i].mass_point / stars[i].mass_point.mass))
  · rw [markStar_of_contains (show tree.containsPt _ from hcc)]
    refine ⟨rfl, ?_⟩
    rw [if_pos hcc]
  · rw [markStar_of_not_contains (show ¬ tree.containsPt _ from hcc)]
    refine ⟨rfl, ?_⟩
    rw [if_neg hcc]

/-- C3 (counterexample to the claim as stated).  A body that starts in bounds
at `(0,0)` with velocity `(10^6, 0)` has the claimed new velocity, but its
final position is the sentinel, not `old position + new velocity`: its updated
position `(10^6, 0)` left the root's bounds, so the final pass of
`Simulation::update` overwrote it. -/
theorem update_position_counterexample :
    updateF id (0, 0) 1 [⟨⟨(0, 0), 1⟩, (1000000, 0), (0, 0, 0)⟩] =
        some [⟨⟨(0, 0), 1⟩, (1000000, 0), (0, 0, 0)⟩] ∧
      simRoot.containsPt (0, 0) ∧
      ((0, 0) : Vec2) ≠ (0, 0) + ((1000000 : ℚ), (0 : ℚ)) := by
  refine ⟨?_, by norm_num [simRoot, newRoot, Node.containsPt, Node.pos, Node.scale, SCALE], ?_⟩
  · norm_num [updateF, buildTreeF, insertF, simRoot, newRoot, Node.com, Node.setCom,
      Node.containsPt, Node.pos, Node.scale, Node.leaf, SCALE, stepStar, markStar,
      force_on, forcePart, normSq, EPSILON, THETA, GRAVITY, Prod.ext_iff]
  · norm_num [Prod.ext_iff]

/-! ## C7: out-of-bounds bodies -/

theorem stepStar_of_not_contains {sq : ℚ → ℚ} {tree : Node} {s : Star}
    (h : ¬ tree.containsPt s.mass_point.position) : stepStar sq tree s = s := by
  rw [stepStar, if_neg h]

theorem containsPt_congr {t1 t2 : Node} (hp : t1.pos = t2.pos) (hs : t1.scale = t2.scale)
    (p : Vec2) : t1.containsPt p ↔ t2.containsPt p := by
  unfold Node.containsPt
  rw [hp, hs]

theorem buildTreeF_cons_of_contains {fuel : Nat} {t : Node} {s : Star} {rest : List Star}
    (hc : t.containsPt s.mass_point.position) :
    buildTreeF fuel t (s :: rest) =
      (insertF fuel t s.mass_point).bind fun t1 => buildTreeF fuel t1 rest := by
  rw [buildTreeF, if_pos hc]
  cases hstep : insertF fuel t s.mass_point <;> rfl

theorem buildTreeF_cons_of_not_contains {fuel : Nat} {t : Node} {s : Star} {rest : List Star}
    (hc : ¬ t.containsPt s.mass_point.position) :
    buildTreeF fuel t (s :: rest) = buildTreeF fuel t rest := by
  rw [buildTreeF, if_neg hc]

theorem buildTreeF_frame :
    ∀ (l : List Star) (fuel : Nat) (t tree : Node), buildTreeF fuel t l = some tree →
      tree.pos = t.pos ∧ tree.scale = t.scale := by
  intro l
  induction l with
  | nil =>
    intro fuel t tree h
    cases h
    exact ⟨rfl, rfl⟩
  | cons s rest ih =>
    intro fuel t tree h
    by_cases hc : t.containsPt s.mass_point.position
    · rw [buildTreeF_cons_of_contains hc] at h
      rcases Option.bind_eq_some.1 h with ⟨t1, hstep, h2⟩
      obtain ⟨h3, h4⟩ := ih fuel t1 tree h2
      obtain ⟨h5, h6⟩ := insertF_frame fuel t s.mass_point t1 hstep
      exact ⟨h3.trans h5, h4.trans h6⟩
    · rw [buildTreeF_cons_of_not_contains hc] at h
      exact ih fuel t tree h

/-- Building the tree skips a star whose position the (fixed-frame) tree does
not contain, wherever it sits in the list. -/
theorem buildTreeF_skip (fuel : Nat) (s : Star)
    (hnc : ¬ simRoot.containsPt s.mass_point.position) :
    ∀ (l1 l2 : List Star) (t : Node), t.pos = simRoot.pos → t.scale = simRoot.scale →
      buildTreeF fuel t (l1 ++ s :: l2) = buildTreeF fuel t (l1 ++ l2) := by
  intro l1
  induction l1 with
  | nil =>
    intro l2 t hp hs
    simp only [List.nil_append]
    exact buildTreeF_cons_of_not_contains fun hc => hnc ((containsPt_congr hp hs _).1 hc)
  | cons x l1 ih =>
    intro l2 t hp hs
    simp only [List.cons_append]
    by_cases hc : t.containsPt x.mass_point.position
    · rw [buildTreeF_cons_of_contains hc, buildTreeF_cons_of_contains hc]
      cases hstep : insertF fuel t x.mass_point with
      | none => rfl
      | some t1 =>
        simp only [some_bind]
        obtain ⟨h3, h4⟩ := insertF_frame fuel t x.mass_point t1 hstep
        exact ih l2 t1 (h3.trans hp) (h4.trans hs)
    · rw [buildTreeF_cons_of_not_contains hc, buildTreeF_cons_of_not_contains hc]
      exact ih l2 t hp hs

/-- C7.  Every body lying outside the root's bounds at the start of the step
is excluded from the built tree — building from the list with that body erased
yields the very same tree, so it contributes no force to any in-bounds body —
and the body itself is marked as removed: its position is overwritten with the
sentinel value (NaN in the source) while its velocity, mass and colour are
kept.  This single policy is applied to every such body. -/
theorem update_out_of_bounds (sq : ℚ → ℚ) (sentinel : Vec2) (fuel : Nat)
    (stars out : List Star) (tree : Node)
    (hb : buildTreeF fuel simRoot stars = some tree)
    (h : updateF sq sentinel fuel stars = some out) :
    ∀ i (hi : i < stars.length) (hi2 : i < out.length),
      ¬ tree.containsPt (stars.get ⟨i, hi⟩).mass_point.position →
      out.get ⟨i, hi2⟩ = ⟨⟨sentinel, (stars.get ⟨i, hi⟩).mass_point.mass⟩,
        (stars.get ⟨i, hi⟩).vel, (stars.get ⟨i, hi⟩).color⟩ ∧
      buildTreeF fuel simRoot (stars.eraseIdx i) = some tree := by
  rw [updateF_eq hb] at h
  cases h
  intro i hi hi2 hnc
  constructor
  · simp only [List.get_eq_getElem] at hnc ⊢
    simp only [List.getElem_map]
    rw [stepStar_of_not_contains hnc, markStar_of_not_contains hnc]
  · have hframe := buildTreeF_frame stars fuel simRoot tree hb
    have hnc2 : ¬ simRoot.containsPt (stars.get ⟨i, hi⟩).mass_point.position := by
      intro hcon
      exact hnc ((containsPt_congr hframe.1 hframe.2 _).2 hcon)
    have hskip := buildTreeF_skip fuel (stars.get ⟨i, hi⟩) hnc2 (stars.take i)
      (stars.drop (i + 1)) simRoot rfl rfl
    have hdecomp : stars.take i ++ stars.get ⟨i, hi⟩ :: stars.drop (i + 1) = stars := by
      rw [List.cons_get_drop_succ, List.take_append_drop]
    rw [hdecomp] at hskip
    rw [List.eraseIdx_eq_take_drop_succ, ← hskip]
    exact hb

/-! ## Witnesses for the simulation-step theorems -/

/-- C9 witness: a concrete one-star step. -/
theorem update_preserves_bodies_witness :
    ([w9out] : List Star).length = ([w9star] : List Star).length ∧
      ∀ i (hi : i < ([w9star] : List Star).length) (hi2 : i < ([w9out] : List Star).length),
        (([w9out] : List Star).get ⟨i, hi2⟩).mass_point.mass =
          (([w9star] : List Star).get ⟨i, hi⟩).mass_point.mass ∧
        (([w9out] : List Star).get ⟨i, hi2⟩).color =
          (([w9star] : List Star).get ⟨i, hi⟩).color := by
  refine update_preserves_bodies id (0, 0) 1 [w9star] [w9out] ?_
  norm_num [updateF, buildTreeF, insertF, simRoot, newRoot, Node.com, Node.setCom,
    Node.containsPt, Node.pos, Node.scale, Node.leaf, SCALE, stepStar, markStar,
    force_on, forcePart, normSq, EPSILON, THETA, GRAVITY, w9star, w9out, Prod.ext_iff]

/-- C3 witness: a concrete in-bounds star whose updated position stays in
bounds. -/
theorem update_velocity_position_witness :
    (([w3out] : List Star).get ⟨0, Nat.zero_lt_one⟩).vel =
        (([w3star] : List Star).get ⟨0, Nat.zero_lt_one⟩).vel +
          force_on id w3tree (([w3star] : List Star).get ⟨0, Nat.zero_lt_one⟩).mass_point /
            (([w3star] : List Star).get ⟨0, Nat.zero_lt_one⟩).mass_point.mass ∧
      (([w3out] : List Star).get ⟨0, Nat.zero_lt_one⟩).mass_point.position =
        (if w3tree.containsPt
            ((([w3star] : List Star).get ⟨0, Nat.zero_lt_one⟩).mass_point.position +
              ((([w3star] : List Star).get ⟨0, Nat.zero_lt_one⟩).vel +
                force_on id w3tree
                    (([w3star] : List Star).get ⟨0, Nat.zero_lt_one⟩).mass_point /
                  (([w3star] : List Star).get ⟨0, Nat.zero_lt_one⟩).mass_point.mass))
         then (([w3star] : List Star).get ⟨0, Nat.zero_lt_one⟩).mass_point.position +
            ((([w3star] : List Star).get ⟨0, Nat.zero_lt_one⟩).vel +
              force_on id w3tree (([w3star] : List Star).get ⟨0, Nat.zero_lt_one⟩).mass_point /
                (([w3star] : List Star).get ⟨0, Nat.zero_lt_one⟩).mass_point.mass)
         else (0, 0)) := by
  refine update_velocity_position id (0, 0) 1 [w3star] [w3out] w3tree ?_ ?_ 0
    Nat.zero_lt_one Nat.zero_lt_one ?_
  · norm_num [buildTreeF, insertF, simRoot, newRoot, Node.com, Node.setCom,
      Node.containsPt, Node.pos, Node.scale, SCALE, w3star, w3tree, Prod.ext_iff]
  · norm_num [updateF, buildTreeF, insertF, simRoot, newRoot, Node.com, Node.setCom,
      Node.containsPt, Node.pos, Node.scale, Node.leaf, SCALE, stepStar, markStar,
      force_on, forcePart, normSq, EPSILON, THETA, GRAVITY, w3star, w3out, Prod.ext_iff]
  · norm_num [Node.containsPt, Node.pos, Node.scale, w3tree, w3star, List.get]

/-- C7 witness: a two-star step with one star out of bounds. -/
theorem update_out_of_bounds_witness :
    ([w7in, w7outMarked] : List Star).get ⟨1, Nat.one_lt_two⟩ =
        ⟨⟨(9, 9), (([w7in, w7out] : List Star).get ⟨1, Nat.one_lt_two⟩).mass_point.mass⟩,
          (([w7in, w7out] : List Star).get ⟨1, Nat.one_lt_two⟩).vel,
          (([w7in, w7out] : List Star).get ⟨1, Nat.one_lt_two⟩).color⟩ ∧
      buildTreeF 1 simRoot (([w7in, w7out] : List Star).eraseIdx 1) = some w7tree := by
  refine update_out_of_bounds id (9, 9) 1 [w7in, w7out] [w7in, w7outMarked] w7tree ?_ ?_ 1
    Nat.one_lt_two Nat.one_lt_two ?_
  · norm_num [buildTreeF, insertF, simRoot, newRoot, Node.com, Node.setCom,
      Node.containsPt, Node.pos, Node.scale, SCALE, w7in, w7out, w7tree, Prod.ext_iff]
  · norm_num [updateF, buildTreeF, insertF, simRoot, newRoot, Node.com, Node.setCom,
      Node.containsPt, Node.pos, Node.scale, Node.leaf, SCALE, stepStar, markStar,
      force_on, forcePart, normSq, EPSILON, THETA, GRAVITY, w7in, w7out, w7outMarked,
      w7tree, Prod.ext_iff]
  · norm_num [Node.containsPt, Node.pos, Node.scale, w7tree, w7out, w7in, List.get]

end Gravsim
